import Mathlib

set_option linter.unusedSectionVars false

/-!
Verification development for the model module of the omikuji repository
(balanced 2-means clustering of sparse label-centroid vectors).

The embedding is polymorphic over a linear ordered field `K` standing for
the exact value semantics of the floating point numbers used by the code,
and over an explicit square-root function `sq : K → K`, instantiated with
`Real.sqrt` at `K = ℝ` for the numeric claims.

Sparse vectors are sorted association lists of index-value entries; hash
maps used by the code for accumulation are modelled as association lists
in first-insertion order (hash-map iteration order is unspecified in the
source; no claim below depends on it).
-/

namespace Omikuji

variable {K : Type} [LinearOrderedField K]

/-- Association-list lookup: first entry with the given key. -/
def lookupA {α : Type} : List (ℕ × α) → ℕ → Option α
  | [], _ => none
  | p :: rest, i => if p.1 = i then some p.2 else lookupA rest i

/-- Value of an index-to-scalar map at an index, zero when absent. -/
def toFun (m : List (ℕ × K)) (i : ℕ) : K :=
  (lookupA m i).getD 0

/-- Keys of an association list, in order. -/
def keysA {α : Type} (m : List (ℕ × α)) : List ℕ :=
  m.map Prod.fst

/-- Modelled from the spec: the entry-or-default accumulation
`*map.entry(i).or_default() += x` on a hash map (crate::data is not in
the sources; spec section 4.1, vector accumulation into a mapping). -/
def addToMap (m : List (ℕ × K)) (i : ℕ) (x : K) : List (ℕ × K) :=
  match m with
  | [] => [(i, x)]
  | p :: rest => if p.1 = i then (p.1, p.2 + x) :: rest else p :: addToMap rest i x

/-- Update-or-insert on an association list with a default for absent keys,
modelling `map.entry(k).or_default()` followed by a mutation of the value. -/
def updateEntry {α : Type} (m : List (ℕ × α)) (k : ℕ) (dflt : α) (f : α → α) : List (ℕ × α) :=
  match m with
  | [] => [(k, f dflt)]
  | p :: rest => if p.1 = k then (p.1, f p.2) :: rest else p :: updateEntry rest k dflt f

/-- Sparse vector: list of index-value entries (sorted ascending by index
in well-formed vectors, see `SVSorted`). -/
abbrev SV (K : Type) := List (ℕ × K)

/-- Strict key order on entries. -/
def keyLt {α : Type} (p q : ℕ × α) : Prop :=
  p.1 < q.1

instance {α : Type} : IsTrans (ℕ × α) keyLt :=
  ⟨fun _ _ _ h h' => Nat.lt_trans h h'⟩

instance {α : Type} : IsAntisymm (ℕ × α) keyLt :=
  ⟨fun _ _ h h' => absurd (Nat.lt_trans h h') (Nat.lt_irrefl _)⟩

/-- Well-formedness of a sparse vector: indices strictly ascending
(hence no duplicates). -/
def SVSorted (v : SV K) : Prop :=
  List.Chain' keyLt v

/-- Modelled from the spec: `dot(a, b)` as the inner product of two sorted
sparse vectors by linear merge on indices (crate::data is not in the
sources; spec section 4.1). -/
def dot : SV K → SV K → K
  | [], _ => 0
  | _, [] => 0
  | (i, x) :: xs, (j, y) :: ys =>
    if i < j then dot xs ((j, y) :: ys)
    else if j < i then dot ((i, x) :: xs) ys
    else x * y + dot xs ys
termination_by a b => a.length + b.length

/-- Sum of squared values of a sparse vector. -/
def sumSquares (v : SV K) : K :=
  (v.map (fun p => p.2 * p.2)).sum

/-- Modelled from the spec: `l2_normalize` divides all values by the square
root of the sum of squared values, and is a no-op when that norm is zero
(crate::data is not in the sources; spec section 4.1). The square-root
function is passed explicitly. -/
def l2_normalize (sq : K → K) (v : SV K) : SV K :=
  let n := sq (sumSquares v)
  if n = 0 then v else v.map (fun p => (p.1, p.2 / n))

/-- Modelled from the spec: `prune_with_threshold` drops the entries whose
absolute value is below the threshold, preserving order (crate::data is
not in the sources; spec section 4.1). -/
def prune_with_threshold (t : K) (v : SV K) : SV K :=
  v.filter (fun p => decide (t ≤ |p.2|))

/-- Comparison by key for sorting association lists into index order. -/
def keyLe {α : Type} (p q : ℕ × α) : Prop :=
  p.1 ≤ q.1

instance {α : Type} : DecidableRel (keyLe (α := α)) :=
  fun p q => inferInstanceAs (Decidable (p.1 ≤ q.1))

instance {α : Type} : IsTotal (ℕ × α) keyLe :=
  ⟨fun p q => Nat.le_total p.1 q.1⟩

instance {α : Type} : IsTrans (ℕ × α) keyLe :=
  ⟨fun _ _ _ h h' => Nat.le_trans h h'⟩

/-- Modelled from the spec: `SparseVector::from(map)` emits the entries of
a map in ascending index order (crate::data is not in the sources; spec
section 4.1, from_map). -/
def from_map (m : List (ℕ × K)) : SV K :=
  List.insertionSort keyLe m

/-- Training example: a feature vector and a list of labels, as in
crate::data (modelled from the spec, section 3: features are a sparse
vector, labels a set of label ids). -/
structure Example (K : Type) where
  features : SV K
  labels : List ℕ

/-- Accumulate the entries of a feature vector into a feature-to-value map,
entry by entry. -/
def addFeatures (m : List (ℕ × K)) (v : SV K) : List (ℕ × K) :=
  v.foldl (fun m p => addToMap m p.1 p.2) m

/-- Accumulation step of `compute_feature_vectors_per_label` for one
example: for each label of the example, sum the feature entries of the
example into that label map. -/
def accumExample (acc : List (ℕ × List (ℕ × K))) (ex : Example K) : List (ℕ × List (ℕ × K)) :=
  ex.labels.foldl (fun acc l => updateEntry acc l [] (fun fm => addFeatures fm ex.features)) acc

/-- Embedding of `compute_feature_vectors_per_label` from src/model/mod.rs:
sum feature entries per label, then l2-normalize, then prune each label
vector, and unzip into parallel label and vector sequences. -/
def compute_feature_vectors_per_label (sq : K → K) (examples : List (Example K)) (threshold : K) :
    List ℕ × List (SV K) :=
  let m := examples.foldl accumExample []
  (m.map Prod.fst,
   m.map (fun p => prune_with_threshold threshold (l2_normalize sq (from_map p.2))))

/-- Similarities of every vector to the two centroids, in order:
`(dot c0 v, dot c1 v)` for each input vector (mod.rs lines 41-48). -/
def simsOf (c : SV K × SV K) (vectors : List (SV K)) : List (K × K) :=
  vectors.map (fun v => (dot c.1 v, dot c.2 v))

/-- Difference of similarities for the vector at a given index. -/
def diffAt (sims : List (K × K)) (i : ℕ) : K :=
  (sims.getD i (0, 0)).1 - (sims.getD i (0, 0)).2

/-- Index-difference pairs in input order, as built by the loop of
mod.rs lines 43-48. -/
def indexDiffPairs (sims : List (K × K)) : List (ℕ × K) :=
  (List.range sims.length).map (fun i => (i, diffAt sims i))

/-- Middle rank used for the balanced split (mod.rs line 51). -/
def midRank (n : ℕ) : ℕ :=
  n / 2 - 1

/-- Contract of `order_stat::kth_by` with the descending comparator of
mod.rs lines 52-54: the result is a permutation of the index-difference
pairs, every rank at most `midRank n` holds a difference at least the one
at `midRank n`, and every rank at least `midRank n` holds a difference at
most it. Tie-breaking is otherwise unspecified. -/
def ValidReorder (sims : List (K × K)) (n : ℕ) (ro : List (ℕ × K)) : Prop :=
  ro.Perm (indexDiffPairs sims) ∧
  (∀ r, r < ro.length → r ≤ midRank n → (ro.getD (midRank n) (0, 0)).2 ≤ (ro.getD r (0, 0)).2) ∧
  (∀ r, r < ro.length → midRank n ≤ r → (ro.getD r (0, 0)).2 ≤ (ro.getD (midRank n) (0, 0)).2)

/-- Partition assignment loop of mod.rs lines 58-60: walking the reordered
pairs by rank `r`, set `partitions[i] := r > mid_rank`. -/
def partitionsOf (n : ℕ) (ro : List (ℕ × K)) : List Bool :=
  ro.enum.foldl (fun ps p => ps.set p.2.1 (decide (midRank n < p.1))) (List.replicate n false)

/-- Total-similarity accumulation of mod.rs line 63: sum, over the
reordered pairs, the similarity of each vector to its assigned centroid. -/
def totalSim (sims : List (K × K)) (n : ℕ) (ro : List (ℕ × K)) : K :=
  ro.enum.foldl
    (fun acc p =>
      acc + (if midRank n < p.1 then (sims.getD p.2.1 (0, 0)).2 else (sims.getD p.2.1 (0, 0)).1))
    0

/-- Centroid-builder accumulation of mod.rs lines 65-70: add the entries of
each vector into the builder map of its assigned partition. -/
def centroidMaps (vectors : List (SV K)) (n : ℕ) (ro : List (ℕ × K)) :
    List (ℕ × K) × List (ℕ × K) :=
  ro.enum.foldl
    (fun ms p =>
      if midRank n < p.1 then (ms.1, addFeatures ms.2 (vectors.getD p.2.1 []))
      else (addFeatures ms.1 (vectors.getD p.2.1 []), ms.2))
    ([], [])

/-- Embedding of `balanced_2means_iterate` from src/model/mod.rs, with the
reordering produced by `kth_by` passed explicitly (see `ValidReorder`).
Returns the partition assignment, the two new centroids (l2-normalized
builder sums, mod.rs lines 74-78), and the average similarity
(mod.rs line 80). -/
def balanced_2means_iterate (sq : K → K) (vectors : List (SV K)) (c : SV K × SV K)
    (ro : List (ℕ × K)) : List Bool × (SV K × SV K) × K :=
  let n := vectors.length
  let sims := simsOf c vectors
  let maps := centroidMaps vectors n ro
  (partitionsOf n ro,
   (l2_normalize sq (from_map maps.1), l2_normalize sq (from_map maps.2)),
   totalSim sims n ro / (n : K))

/-- Loop of `balanced_2means` from src/model/mod.rs lines 97-106, with
explicit fuel standing for the unbounded loop, a selection function `sel`
standing for `kth_by` (it produces the reordered pairs from the current
centroids), and the running state (centroids, previous average
similarity). Returns `none` when the fuel runs out or when the assertion
`avg_similarity >= prev_avg_similarity` of line 99 fails. -/
def b2mGo (sq : K → K) (vectors : List (SV K)) (sel : SV K × SV K → List (ℕ × K)) (epsilon : K) :
    ℕ → SV K × SV K → K → Option (List Bool)
  | 0, _, _ => none
  | fuel + 1, c, prev =>
    let res := balanced_2means_iterate sq vectors c (sel c)
    if res.2.2 < prev then none
    else if res.2.2 - prev < epsilon then some res.1
    else b2mGo sq vectors sel epsilon fuel res.2.1 res.2.2

/-- Embedding of `balanced_2means` from src/model/mod.rs: the two initial
centroids are the vectors at two randomly chosen distinct positions
(passed as `k0`, `k1`), `prev_avg_similarity` starts at `-2`, and the
loop runs on the given fuel. -/
def balanced_2means (sq : K → K) (vectors : List (SV K)) (epsilon : K)
    (sel : SV K × SV K → List (ℕ × K)) (k0 k1 : ℕ) (fuel : ℕ) : Option (List Bool) :=
  b2mGo sq vectors sel epsilon fuel (vectors.getD k0 [], vectors.getD k1 []) (-2)

/-- Deterministic instance of the `kth_by` contract used for concrete
runs: fully sort the index-difference pairs by descending difference. -/
def descRel (p q : ℕ × K) : Prop :=
  q.2 ≤ p.2

instance : DecidableRel (descRel (K := K)) :=
  fun p q => inferInstanceAs (Decidable (q.2 ≤ p.2))

instance : IsTotal (ℕ × K) (descRel (K := K)) :=
  ⟨fun p q => le_total q.2 p.2⟩

instance : IsTrans (ℕ × K) (descRel (K := K)) :=
  ⟨fun _ _ _ h h' => le_trans h' h⟩

/-- Selection by full descending sort; one concrete valid implementation
of the `kth_by` contract. -/
def insSel (vectors : List (SV K)) (c : SV K × SV K) : List (ℕ × K) :=
  List.insertionSort descRel (indexDiffPairs (simsOf c vectors))

/-- Rank of an input index in a reordered pair list: its position there. -/
def rankOf (ro : List (ℕ × K)) (i : ℕ) : ℕ :=
  (ro.map Prod.fst).indexOf i

lemma length_indexDiffPairs (sims : List (K × K)) :
    (indexDiffPairs sims).length = sims.length := by
  simp [indexDiffPairs]

lemma map_fst_indexDiffPairs (sims : List (K × K)) :
    (indexDiffPairs sims).map Prod.fst = List.range sims.length := by
  rw [indexDiffPairs, List.map_map]
  have h : (Prod.fst ∘ fun i => ((i : ℕ), diffAt sims i)) = id := rfl
  rw [h, List.map_id]

lemma reorder_length {sims : List (K × K)} {ro : List (ℕ × K)}
    (hro : ro.Perm (indexDiffPairs sims)) : ro.length = sims.length := by
  rw [hro.length_eq, length_indexDiffPairs]

lemma reorder_keys_perm {sims : List (K × K)} {ro : List (ℕ × K)}
    (hro : ro.Perm (indexDiffPairs sims)) :
    (ro.map Prod.fst).Perm (List.range sims.length) := by
  rw [← map_fst_indexDiffPairs]
  exact hro.map Prod.fst

lemma reorder_keys_nodup {sims : List (K × K)} {ro : List (ℕ × K)}
    (hro : ro.Perm (indexDiffPairs sims)) : (ro.map Prod.fst).Nodup :=
  (reorder_keys_perm hro).nodup_iff.mpr (List.nodup_range _)

lemma map_indexOf_self {α : Type} [DecidableEq α] (l : List α) (hnd : l.Nodup) :
    l.map (fun x => l.indexOf x) = List.range l.length := by
  apply List.ext_getElem (by simp)
  intro j h1 h2
  simp only [List.getElem_map, List.getElem_range]
  exact List.indexOf_getElem hnd j (by simpa using h1)

lemma rankOf_map_perm {sims : List (K × K)} {ro : List (ℕ × K)}
    (hro : ro.Perm (indexDiffPairs sims)) :
    ((List.range sims.length).map (rankOf ro)).Perm (List.range sims.length) := by
  have h1 : ((ro.map Prod.fst).map (rankOf ro)).Perm
      ((List.range sims.length).map (rankOf ro)) :=
    (reorder_keys_perm hro).map (rankOf ro)
  have h2 : (ro.map Prod.fst).map (rankOf ro) = List.range sims.length := by
    have h3 := map_indexOf_self (ro.map Prod.fst) (reorder_keys_nodup hro)
    simpa [rankOf, reorder_length hro] using h3
  rw [h2] at h1
  exact h1.symm

lemma length_foldl_set (mid : ℕ) (l : List (ℕ × (ℕ × K))) (ps : List Bool) :
    (l.foldl (fun ps p => ps.set p.2.1 (decide (mid < p.1))) ps).length = ps.length := by
  induction l generalizing ps with
  | nil => rfl
  | cons a l ih => simp [ih]

lemma foldl_set_getElem? (mid : ℕ) (l : List (ℕ × K)) (s : ℕ) (ps : List Bool) (j : ℕ)
    (hnd : (l.map Prod.fst).Nodup) (hb : ∀ k ∈ l.map Prod.fst, k < ps.length) :
    ((l.enumFrom s).foldl (fun ps p => ps.set p.2.1 (decide (mid < p.1))) ps)[j]? =
      if j ∈ l.map Prod.fst then some (decide (mid < s + (l.map Prod.fst).indexOf j))
      else ps[j]? := by
  induction l generalizing s ps with
  | nil => simp [List.enumFrom]
  | cons a l ih =>
    simp only [List.map_cons, List.nodup_cons] at hnd
    have hb1 : a.1 < ps.length := hb a.1 (by simp)
    have hb2 : ∀ k ∈ l.map Prod.fst, k < (ps.set a.1 (decide (mid < s))).length := by
      intro k hk
      rw [List.length_set]
      exact hb k (by simp [hk])
    rw [show (a :: l).enumFrom s = (s, a) :: l.enumFrom (s + 1) from rfl]
    rw [List.foldl_cons, ih (s + 1) _ hnd.2 hb2]
    by_cases hj : j = a.1
    · subst hj
      have hnotmem : a.1 ∉ l.map Prod.fst := hnd.1
      rw [if_neg hnotmem, List.map_cons,
        if_pos (List.mem_cons_self a.1 (l.map Prod.fst)),
        List.indexOf_cons_self, Nat.add_zero, List.getElem?_set_self hb1]
    · by_cases hl : j ∈ l.map Prod.fst
      · have hidx : (a.1 :: l.map Prod.fst).indexOf j = (l.map Prod.fst).indexOf j + 1 :=
          List.indexOf_cons_ne _ (fun h => hj h.symm)
        rw [if_pos hl, List.map_cons, if_pos (List.mem_cons_of_mem _ hl), hidx]
        have harith : s + 1 + (l.map Prod.fst).indexOf j =
            s + ((l.map Prod.fst).indexOf j + 1) := by omega
        rw [harith]
      · have hne : a.1 ≠ j := fun h => hj h.symm
        rw [if_neg hl, List.map_cons, if_neg (by simp [hj, hl]),
          List.getElem?_set_ne hne]

lemma length_partitionsOf (n : ℕ) (ro : List (ℕ × K)) :
    (partitionsOf n ro).length = n := by
  unfold partitionsOf
  rw [show ro.enum = ro.enumFrom 0 from rfl]
  generalize ro.enumFrom 0 = l
  rw [length_foldl_set, List.length_replicate]

lemma partitionsOf_getElem? {sims : List (K × K)} {ro : List (ℕ × K)}
    (hro : ro.Perm (indexDiffPairs sims)) {j : ℕ} (hj : j < sims.length) :
    (partitionsOf sims.length ro)[j]? =
      some (decide (midRank sims.length < rankOf ro j)) := by
  have hmem : j ∈ ro.map Prod.fst := by
    rw [(reorder_keys_perm hro).mem_iff, List.mem_range]
    exact hj
  have hb : ∀ k ∈ ro.map Prod.fst, k < (List.replicate sims.length (false : Bool)).length := by
    intro k hk
    rw [List.length_replicate]
    rw [(reorder_keys_perm hro).mem_iff, List.mem_range] at hk
    exact hk
  unfold partitionsOf
  rw [show ro.enum = ro.enumFrom 0 from rfl,
    foldl_set_getElem? (midRank sims.length) ro 0 _ j (reorder_keys_nodup hro) hb]
  simp [hmem, rankOf]

lemma partitionsOf_eq_map {sims : List (K × K)} {ro : List (ℕ × K)}
    (hro : ro.Perm (indexDiffPairs sims)) :
    partitionsOf sims.length ro =
      (List.range sims.length).map (fun j => decide (midRank sims.length < rankOf ro j)) := by
  apply List.ext_getElem?
  intro j
  by_cases hj : j < sims.length
  · rw [partitionsOf_getElem? hro hj, List.getElem?_map,
      List.getElem?_range hj]
    rfl
  · rw [List.getElem?_eq_none, List.getElem?_eq_none]
    · simp
      omega
    · rw [length_partitionsOf]
      omega

lemma count_true_range_map (mid n : ℕ) :
    ((List.range n).map (fun r => decide (mid < r))).count true = n - (mid + 1) := by
  induction n with
  | zero => simp
  | succ n ih =>
    rw [List.range_succ, List.map_append, List.count_append, ih]
    by_cases h : mid < n
    · simp [h]
      omega
    · simp [h]
      omega

lemma count_false_aux (l : List Bool) : l.count false + l.count true = l.length := by
  induction l with
  | nil => rfl
  | cons b l ih =>
    cases b <;> simp [List.count_cons, ih] <;> omega

lemma count_true_partitionsOf {sims : List (K × K)} {ro : List (ℕ × K)}
    (hro : ro.Perm (indexDiffPairs sims)) (hn : 2 ≤ sims.length) :
    (partitionsOf sims.length ro).count true = sims.length - sims.length / 2 := by
  rw [partitionsOf_eq_map hro]
  have hperm : ((List.range sims.length).map
      (fun j => decide (midRank sims.length < rankOf ro j))).Perm
      ((List.range sims.length).map (fun r => decide (midRank sims.length < r))) := by
    have h1 := (rankOf_map_perm hro).map (fun r => decide (midRank sims.length < r))
    simpa [List.map_map, Function.comp] using h1
  rw [hperm.count_eq, count_true_range_map]
  have : midRank sims.length + 1 = sims.length / 2 := by
    unfold midRank
    omega
  rw [this]

lemma count_false_partitionsOf {sims : List (K × K)} {ro : List (ℕ × K)}
    (hro : ro.Perm (indexDiffPairs sims)) (hn : 2 ≤ sims.length) :
    (partitionsOf sims.length ro).count false = sims.length / 2 := by
  have h1 := count_false_aux (partitionsOf sims.length ro)
  rw [count_true_partitionsOf hro hn, length_partitionsOf] at h1
  omega

instance : IsRefl (ℕ × K) (descRel (K := K)) :=
  ⟨fun p => le_refl p.2⟩

lemma insSel_valid (vectors : List (SV K)) (c : SV K × SV K) :
    ValidReorder (simsOf c vectors) vectors.length (insSel vectors c) := by
  have hlen : (simsOf c vectors).length = vectors.length := by simp [simsOf]
  have hperm : (insSel vectors c).Perm (indexDiffPairs (simsOf c vectors)) :=
    List.perm_insertionSort _ _
  have hs : List.Sorted descRel (insSel vectors c) :=
    List.sorted_insertionSort _ _
  have hrolen : (insSel vectors c).length = vectors.length := by
    rw [reorder_length hperm, hlen]
  refine ⟨hperm, ?_, ?_⟩
  · intro r hr hrm
    have hmid : midRank vectors.length < (insSel vectors c).length := by
      rw [hrolen]
      unfold midRank at hrm ⊢
      omega
    have hrlt : r < (insSel vectors c).length := hr
    rw [List.getD_eq_get _ _ hmid, List.getD_eq_get _ _ hrlt]
    exact hs.rel_get_of_le (by exact hrm)
  · intro r hr hrm
    have hmid : midRank vectors.length < (insSel vectors c).length := by
      omega
    have hrlt : r < (insSel vectors c).length := hr
    rw [List.getD_eq_get _ _ hrlt, List.getD_eq_get _ _ hmid]
    exact hs.rel_get_of_le (by exact hrm)

lemma b2mGo_some_parts (sq : K → K) (vectors : List (SV K)) (sel : SV K × SV K → List (ℕ × K))
    (epsilon : K) :
    ∀ (fuel : ℕ) (c : SV K × SV K) (prev : K) (parts : List Bool),
      b2mGo sq vectors sel epsilon fuel c prev = some parts →
      ∃ c', parts = partitionsOf vectors.length (sel c')
  | 0, c, prev, parts, h => by simp [b2mGo] at h
  | fuel + 1, c, prev, parts, h => by
    rw [b2mGo] at h
    by_cases h1 : (balanced_2means_iterate sq vectors c (sel c)).2.2 < prev
    · simp only [h1, if_true] at h
      exact absurd h (by simp)
    · by_cases h2 : (balanced_2means_iterate sq vectors c (sel c)).2.2 - prev < epsilon
      · refine ⟨c, ?_⟩
        simp only [h1, h2, if_false, if_true, Option.some.injEq] at h
        rw [← h]
        rfl
      · simp only [h1, h2, if_false] at h
        exact b2mGo_some_parts sq vectors sel epsilon fuel _ _ parts h

lemma counts_of_valid_sel {sq : K → K} {vectors : List (SV K)}
    {sel : SV K × SV K → List (ℕ × K)} {epsilon : K} {k0 k1 fuel : ℕ} {parts : List Bool}
    (hn : 2 ≤ vectors.length)
    (hsel : ∀ c, ValidReorder (simsOf c vectors) vectors.length (sel c))
    (h : balanced_2means sq vectors epsilon sel k0 k1 fuel = some parts) :
    parts.count true = vectors.length - vectors.length / 2 ∧
    parts.count false = vectors.length / 2 := by
  obtain ⟨c', hp⟩ := b2mGo_some_parts sq vectors sel epsilon fuel _ _ parts h
  have hlen : (simsOf c' vectors).length = vectors.length := by simp [simsOf]
  have hro : (sel c').Perm (indexDiffPairs (simsOf c' vectors)) := (hsel c').1
  have hn' : 2 ≤ (simsOf c' vectors).length := by rw [hlen]; exact hn
  subst hp
  rw [← hlen]
  exact ⟨count_true_partitionsOf hro hn', count_false_partitionsOf hro hn'⟩

/-- Claim C1: every partition assignment returned by `balanced_2means` on at
least two vectors is balanced: the counts of vectors assigned true and
false differ by at most 1, are equal when the vector count is even, and
differ by exactly one when it is odd. -/
theorem claim_C1 (sq : K → K) (vectors : List (SV K)) (epsilon : K)
    (sel : SV K × SV K → List (ℕ × K)) (k0 k1 fuel : ℕ) (parts : List Bool)
    (hn : 2 ≤ vectors.length)
    (hsel : ∀ c, ValidReorder (simsOf c vectors) vectors.length (sel c))
    (h : balanced_2means sq vectors epsilon sel k0 k1 fuel = some parts) :
    ((parts.count true : ℤ) - parts.count false).natAbs ≤ 1 ∧
    (vectors.length % 2 = 0 → parts.count true = parts.count false) ∧
    (vectors.length % 2 = 1 → ((parts.count true : ℤ) - parts.count false).natAbs = 1) := by
  obtain ⟨h1, h2⟩ := counts_of_valid_sel hn hsel h
  refine ⟨?_, ?_, ?_⟩ <;> rw [h1, h2] <;> omega

/-- Concrete pair of unit vectors used to instantiate the universal claims. -/
def twoVecs : List (SV ℚ) :=
  [[(0, 1)], [(1, 1)]]

lemma twoVecs_run :
    balanced_2means (id : ℚ → ℚ) twoVecs 4 (insSel twoVecs) 0 1 1 = some [false, true] := by
  norm_num [-Prod.mk_one_one, -Prod.mk_zero_zero, twoVecs, balanced_2means, b2mGo,
    balanced_2means_iterate, insSel, indexDiffPairs, simsOf, diffAt, dot.eq_1, dot.eq_2,
    dot.eq_3, List.insertionSort, List.orderedInsert, descRel, partitionsOf, totalSim,
    midRank, List.enumFrom, List.enum, List.replicate, List.set]

theorem claim_C1_witness :
    ((([false, true] : List Bool).count true : ℤ) -
      ([false, true] : List Bool).count false).natAbs ≤ 1 ∧
    (twoVecs.length % 2 = 0 →
      ([false, true] : List Bool).count true = ([false, true] : List Bool).count false) ∧
    (twoVecs.length % 2 = 1 →
      ((([false, true] : List Bool).count true : ℤ) -
        ([false, true] : List Bool).count false).natAbs = 1) :=
  claim_C1 id twoVecs 4 (insSel twoVecs) 0 1 1 [false, true] (by norm_num [twoVecs])
    (fun c => insSel_valid twoVecs c) twoVecs_run

lemma rankOf_getD {sims : List (K × K)} {ro : List (ℕ × K)}
    (hro : ro.Perm (indexDiffPairs sims)) {r : ℕ} (hr : r < ro.length) :
    rankOf ro (ro.getD r (0, 0)).1 = r := by
  have hkr : r < (ro.map Prod.fst).length := by simpa using hr
  have h1 : (ro.getD r (0, 0)).1 = (ro.map Prod.fst).getD r 0 := by
    rw [List.getD_eq_getElem _ _ hr, List.getD_eq_getElem _ _ hkr, List.getElem_map]
  rw [rankOf, h1, List.getD_eq_getElem _ _ hkr]
  exact List.indexOf_getElem (reorder_keys_nodup hro) r hkr

lemma partitionsOf_getD {sims : List (K × K)} {ro : List (ℕ × K)}
    (hro : ro.Perm (indexDiffPairs sims)) {j : ℕ} (hj : j < sims.length) :
    (partitionsOf sims.length ro).getD j false =
      decide (midRank sims.length < rankOf ro j) := by
  rw [List.getD_eq_getElem?_getD, partitionsOf_getElem? hro hj]
  rfl

/-- Claim C2 (amended): in each iteration on n vectors the vectors are
ranked by the similarity difference in descending order (the `kth_by`
contract), the vector placed at any rank above `midRank n` is assigned to
partition 1 (true) and the others to partition 0 (false); the number of
vectors assigned true is `n - n / 2` (not `n / 2`, which differs when n
is odd), the rest being assigned false. -/
theorem claim_C2 (sq : K → K) (vectors : List (SV K)) (c : SV K × SV K) (ro : List (ℕ × K))
    (hn : 2 ≤ vectors.length)
    (hro : ValidReorder (simsOf c vectors) vectors.length ro) :
    (∀ r, r < vectors.length →
      (balanced_2means_iterate sq vectors c ro).1.getD (ro.getD r (0, 0)).1 false =
        decide (midRank vectors.length < r)) ∧
    (balanced_2means_iterate sq vectors c ro).1.count true =
      vectors.length - vectors.length / 2 ∧
    (balanced_2means_iterate sq vectors c ro).1.count false = vectors.length / 2 := by
  have hlen : (simsOf c vectors).length = vectors.length := by simp [simsOf]
  have hperm : ro.Perm (indexDiffPairs (simsOf c vectors)) := hro.1
  have hn' : 2 ≤ (simsOf c vectors).length := by rw [hlen]; exact hn
  have hparts : (balanced_2means_iterate sq vectors c ro).1 =
      partitionsOf (simsOf c vectors).length ro := by
    rw [hlen]
    rfl
  refine ⟨?_, ?_, ?_⟩
  · intro r hr
    have hr' : r < ro.length := by rw [reorder_length hperm, hlen]; exact hr
    have hjmem : (ro.getD r (0, 0)).1 ∈ ro.map Prod.fst := by
      rw [List.getD_eq_getElem _ _ hr']
      exact List.mem_map_of_mem Prod.fst (List.getElem_mem hr')
    have hjlt : (ro.getD r (0, 0)).1 < (simsOf c vectors).length := by
      rw [(reorder_keys_perm hperm).mem_iff, List.mem_range] at hjmem
      exact hjmem
    rw [hparts, partitionsOf_getD hperm hjlt, rankOf_getD hperm hr', hlen]
  · rw [hparts, count_true_partitionsOf hperm hn', hlen]
  · rw [hparts, count_false_partitionsOf hperm hn', hlen]

/-- Concrete centroid pair used to instantiate iteration claims. -/
def cW : SV ℚ × SV ℚ :=
  ([(0, 1)], [(1, 1)])

theorem claim_C2_witness :
    (balanced_2means_iterate (id : ℚ → ℚ) twoVecs cW (insSel twoVecs cW)).1.count true =
      twoVecs.length - twoVecs.length / 2 ∧
    (balanced_2means_iterate (id : ℚ → ℚ) twoVecs cW (insSel twoVecs cW)).1.count false =
      twoVecs.length / 2 :=
  (claim_C2 id twoVecs cW (insSel twoVecs cW) (by norm_num [twoVecs])
    (insSel_valid twoVecs cW)).2

/-- Concrete triple of vectors witnessing the odd-count discrepancy. -/
def threeVecs : List (SV ℚ) :=
  [[(0, 1)], [(1, 1)], [(0, 1)]]

theorem claim_C2_counterexample :
    ValidReorder (simsOf cW threeVecs) threeVecs.length (insSel threeVecs cW) ∧
    (balanced_2means_iterate (id : ℚ → ℚ) threeVecs cW (insSel threeVecs cW)).1.count true ≠
      threeVecs.length / 2 := by
  refine ⟨insSel_valid threeVecs cW, ?_⟩
  norm_num [-Prod.mk_one_one, -Prod.mk_zero_zero, threeVecs, cW, balanced_2means_iterate,
    insSel, indexDiffPairs, simsOf, diffAt, dot.eq_1, dot.eq_2, dot.eq_3,
    List.insertionSort, List.orderedInsert, descRel, partitionsOf, midRank,
    List.enumFrom, List.enum, List.replicate, List.set]

lemma lookupA_updateEntry {α : Type} (m : List (ℕ × α)) (k : ℕ) (d : α) (f : α → α) (l : ℕ) :
    lookupA (updateEntry m k d f) l =
      if l = k then some (f ((lookupA m k).getD d)) else lookupA m l := by
  induction m with
  | nil =>
    by_cases h : l = k <;> simp [updateEntry, lookupA, h]
    exact fun h' => absurd h'.symm h
  | cons p rest ih =>
    by_cases hpk : p.1 = k
    · by_cases hlk : l = k
      · subst hlk
        simp [updateEntry, hpk, lookupA]
      · have hkl : ¬(k = l) := fun h => hlk h.symm
        have hp1l : ¬(p.1 = l) := hpk ▸ hkl
        simp [updateEntry, hpk, lookupA, hlk, hkl, hp1l]
    · by_cases hlp : p.1 = l
      · have hlk : ¬(l = k) := fun h => hpk (hlp.trans h)
        simp [updateEntry, hpk, lookupA, hlp, hlk]
      · simp [updateEntry, hpk, lookupA, hlp, ih]

lemma mem_keysA_updateEntry {α : Type} (m : List (ℕ × α)) (k : ℕ) (d : α) (f : α → α) (l : ℕ) :
    l ∈ keysA (updateEntry m k d f) ↔ l ∈ keysA m ∨ l = k := by
  induction m with
  | nil => simp [updateEntry, keysA, eq_comm]
  | cons p rest ih =>
    by_cases hpk : p.1 = k
    · subst hpk
      have he : updateEntry (p :: rest) p.1 d f = (p.1, f p.2) :: rest := by
        simp [updateEntry]
      rw [he]
      simp only [keysA, List.map_cons, List.mem_cons]
      tauto
    · simp only [updateEntry, if_neg hpk, keysA, List.map_cons, List.mem_cons]
      rw [show (updateEntry rest k d f).map Prod.fst = keysA (updateEntry rest k d f) from rfl,
        ih]
      rw [show rest.map Prod.fst = keysA rest from rfl]
      tauto

lemma nodup_keysA_updateEntry {α : Type} (m : List (ℕ × α)) (k : ℕ) (d : α) (f : α → α)
    (hnd : (keysA m).Nodup) : (keysA (updateEntry m k d f)).Nodup := by
  induction m with
  | nil => simp [updateEntry, keysA]
  | cons p rest ih =>
    simp only [keysA, List.map_cons, List.nodup_cons] at hnd
    by_cases hpk : p.1 = k
    · simp only [updateEntry, if_pos hpk, keysA, List.map_cons, List.nodup_cons]
      exact ⟨hnd.1, hnd.2⟩
    · simp only [updateEntry, if_neg hpk, keysA, List.map_cons, List.nodup_cons]
      refine ⟨?_, ih hnd.2⟩
      rw [show (updateEntry rest k d f).map Prod.fst = keysA (updateEntry rest k d f) from rfl,
        mem_keysA_updateEntry]
      rintro (h | h)
      · exact hnd.1 h
      · exact hpk h

lemma lookupA_foldl_update {α : Type} (ks : List ℕ) (d : α) (g : α → α) :
    ∀ (acc : List (ℕ × α)) (l : ℕ), ks.Nodup →
      lookupA (ks.foldl (fun acc k => updateEntry acc k d g) acc) l =
        if l ∈ ks then some (g ((lookupA acc l).getD d)) else lookupA acc l := by
  induction ks with
  | nil => intro acc l _; simp
  | cons k ks ih =>
    intro acc l hnd
    simp only [List.nodup_cons] at hnd
    rw [List.foldl_cons, ih _ _ hnd.2]
    by_cases hlk : l = k
    · subst hlk
      simp [hnd.1, lookupA_updateEntry]
    · by_cases hlks : l ∈ ks
      · simp [hlks, hlk, lookupA_updateEntry]
      · simp [hlks, hlk, lookupA_updateEntry]

lemma mem_keysA_foldl_update {α : Type} (ks : List ℕ) (d : α) (g : α → α) :
    ∀ (acc : List (ℕ × α)) (l : ℕ),
      l ∈ keysA (ks.foldl (fun acc k => updateEntry acc k d g) acc) ↔
        l ∈ keysA acc ∨ l ∈ ks := by
  induction ks with
  | nil => intro acc l; simp
  | cons k ks ih =>
    intro acc l
    rw [List.foldl_cons, ih, mem_keysA_updateEntry]
    simp only [List.mem_cons]
    tauto

lemma nodup_keysA_foldl_update {α : Type} (ks : List ℕ) (d : α) (g : α → α) :
    ∀ (acc : List (ℕ × α)), (keysA acc).Nodup →
      (keysA (ks.foldl (fun acc k => updateEntry acc k d g) acc)).Nodup := by
  induction ks with
  | nil => intro acc h; exact h
  | cons k ks ih =>
    intro acc h
    rw [List.foldl_cons]
    exact ih _ (nodup_keysA_updateEntry _ _ _ _ h)

lemma lookupA_accumExample (acc : List (ℕ × List (ℕ × K))) (ex : Example K) (l : ℕ)
    (hnd : ex.labels.Nodup) :
    lookupA (accumExample acc ex) l =
      if l ∈ ex.labels then some (addFeatures ((lookupA acc l).getD []) ex.features)
      else lookupA acc l := by
  exact lookupA_foldl_update ex.labels [] (fun fm => addFeatures fm ex.features) acc l hnd

/-- Value of the accumulated label map at a label, empty map when absent. -/
def mval (m : List (ℕ × List (ℕ × K))) (l : ℕ) : List (ℕ × K) :=
  (lookupA m l).getD []

/-- Sum of the feature entries of every example tagged with a given label
into a feature-to-value map, stated the way the specification words it
(spec section 4.2). -/
def specLabelVector (examples : List (Example K)) (l : ℕ) : List (ℕ × K) :=
  (examples.filter (fun ex => decide (l ∈ ex.labels))).foldl
    (fun fm ex => addFeatures fm ex.features) []

lemma mval_foldl_accum (examples : List (Example K)) :
    ∀ (acc : List (ℕ × List (ℕ × K))) (l : ℕ),
      (∀ ex ∈ examples, ex.labels.Nodup) →
      mval (examples.foldl accumExample acc) l =
        (examples.filter (fun ex => decide (l ∈ ex.labels))).foldl
          (fun fm ex => addFeatures fm ex.features) (mval acc l) := by
  induction examples with
  | nil => intro acc l _; simp
  | cons ex examples ih =>
    intro acc l hnd
    rw [List.foldl_cons, ih _ _ (fun e he => hnd e (List.mem_cons_of_mem _ he))]
    by_cases hl : l ∈ ex.labels
    · rw [List.filter_cons_of_pos (by simpa using hl), List.foldl_cons]
      congr 1
      rw [mval, lookupA_accumExample _ _ _ (hnd ex (List.mem_cons_self _ _)), if_pos hl]
      rfl
    · rw [List.filter_cons_of_neg (by simpa using hl)]
      congr 1
      rw [mval, lookupA_accumExample _ _ _ (hnd ex (List.mem_cons_self _ _)), if_neg hl]
      rfl

lemma mem_keysA_accum (examples : List (Example K)) :
    ∀ (acc : List (ℕ × List (ℕ × K))) (l : ℕ),
      l ∈ keysA (examples.foldl accumExample acc) ↔
        l ∈ keysA acc ∨ ∃ ex ∈ examples, l ∈ ex.labels := by
  induction examples with
  | nil => intro acc l; simp
  | cons ex examples ih =>
    intro acc l
    rw [List.foldl_cons, ih]
    rw [show accumExample acc ex =
      ex.labels.foldl (fun acc k =>
        updateEntry acc k [] (fun fm => addFeatures fm ex.features)) acc from rfl]
    rw [mem_keysA_foldl_update]
    simp only [List.mem_cons]
    constructor
    · rintro ((h | h) | ⟨e, he, hl⟩)
      · exact Or.inl h
      · exact Or.inr ⟨ex, Or.inl rfl, h⟩
      · exact Or.inr ⟨e, Or.inr he, hl⟩
    · rintro (h | ⟨e, (rfl | he), hl⟩)
      · exact Or.inl (Or.inl h)
      · exact Or.inl (Or.inr hl)
      · exact Or.inr ⟨e, he, hl⟩

lemma nodup_keysA_accum (examples : List (Example K)) :
    ∀ (acc : List (ℕ × List (ℕ × K))), (keysA acc).Nodup →
      (keysA (examples.foldl accumExample acc)).Nodup := by
  induction examples with
  | nil => intro acc h; exact h
  | cons ex examples ih =>
    intro acc h
    rw [List.foldl_cons]
    exact ih _ (nodup_keysA_foldl_update _ _ _ _ h)

lemma lookupA_of_mem_nodup {α : Type} (m : List (ℕ × α)) (q : ℕ × α)
    (hnd : (keysA m).Nodup) (hq : q ∈ m) : lookupA m q.1 = some q.2 := by
  induction m with
  | nil => cases hq
  | cons p rest ih =>
    simp only [keysA, List.map_cons, List.nodup_cons] at hnd
    rcases List.mem_cons.mp hq with h | h
    · subst h
      simp [lookupA]
    · have hne : p.1 ≠ q.1 := by
        intro he
        exact hnd.1 (he ▸ List.mem_map_of_mem Prod.fst h)
      simp only [lookupA, if_neg hne]
      exact ih hnd.2 h

lemma zip_map_fst {α β : Type} (m : List (ℕ × α)) (f : ℕ × α → β) :
    (m.map Prod.fst).zip (m.map f) = m.map (fun q => (q.1, f q)) := by
  induction m with
  | nil => rfl
  | cons p rest ih => simp [ih]

/-- Claim C3: every vector produced by `compute_feature_vectors_per_label`
for a label is the pruning, at the given threshold, of the l2
normalization of the summed feature entries of every example tagged with
that label, in that order, with no re-normalization after pruning. The
hypothesis states that each label list is duplicate-free, as the data
model makes labels a set. -/
theorem claim_C3 (sq : K → K) (examples : List (Example K)) (threshold : K)
    (hnd : ∀ ex ∈ examples, ex.labels.Nodup) :
    ∀ p ∈ ((compute_feature_vectors_per_label sq examples threshold).1).zip
      ((compute_feature_vectors_per_label sq examples threshold).2),
      p.2 = prune_with_threshold threshold
        (l2_normalize sq (from_map (specLabelVector examples p.1))) := by
  intro p hp
  rw [compute_feature_vectors_per_label] at hp
  simp only at hp
  rw [zip_map_fst] at hp
  rcases List.mem_map.mp hp with ⟨q, hq, hpq⟩
  have hnodup : (keysA (examples.foldl accumExample [])).Nodup :=
    nodup_keysA_accum examples [] (by simp [keysA])
  have hlook : lookupA (examples.foldl accumExample []) q.1 = some q.2 :=
    lookupA_of_mem_nodup _ q hnodup hq
  have hval : q.2 = specLabelVector examples q.1 := by
    have h1 := mval_foldl_accum examples [] q.1 hnd
    rw [mval, hlook] at h1
    simpa [specLabelVector, mval, lookupA] using h1
  rw [← hpq]
  simp only
  rw [hval]

/-- Concrete one-example dataset used to instantiate claim C3. -/
def oneEx : List (Example ℚ) :=
  [⟨[(0, 1)], [0]⟩]

theorem claim_C3_witness :
    (((0 : ℕ), ([(0, 1)] : SV ℚ)) : ℕ × SV ℚ).2 =
      prune_with_threshold 0 (l2_normalize id
        (from_map (specLabelVector oneEx (((0 : ℕ), ([(0, 1)] : SV ℚ)) : ℕ × SV ℚ).1))) :=
  claim_C3 id oneEx 0 (by norm_num [oneEx]) ((0 : ℕ), ([(0, 1)] : SV ℚ))
    (by norm_num [-Prod.mk_one_one, -Prod.mk_zero_zero, oneEx,
      compute_feature_vectors_per_label, accumExample, updateEntry, addFeatures, addToMap,
      from_map, List.insertionSort, List.orderedInsert, keyLe, l2_normalize, sumSquares,
      prune_with_threshold])

/-- Claim C10: the two sequences returned by
`compute_feature_vectors_per_label` have equal length, the returned labels
are duplicate-free, and they are exactly the labels occurring in some
example. -/
theorem claim_C10 (sq : K → K) (examples : List (Example K)) (threshold : K) :
    (compute_feature_vectors_per_label sq examples threshold).1.length =
      (compute_feature_vectors_per_label sq examples threshold).2.length ∧
    (compute_feature_vectors_per_label sq examples threshold).1.Nodup ∧
    (∀ l, l ∈ (compute_feature_vectors_per_label sq examples threshold).1 ↔
      ∃ ex ∈ examples, l ∈ ex.labels) := by
  refine ⟨by simp [compute_feature_vectors_per_label], ?_, ?_⟩
  · exact nodup_keysA_accum examples [] (by simp [keysA])
  · intro l
    have h := mem_keysA_accum examples [] l
    simp only [keysA, List.map_nil, List.not_mem_nil, false_or] at h
    exact h

/-- Sum of the values carried by a given index in an entry list (equals
`toFun` on well-formed sparse vectors, where each index occurs once). -/
def vsum (v : SV K) (j : ℕ) : K :=
  (v.map (fun p => if p.1 = j then p.2 else 0)).sum

lemma toFun_addToMap (m : List (ℕ × K)) (i : ℕ) (x : K) (j : ℕ) :
    toFun (addToMap m i x) j = toFun m j + (if i = j then x else 0) := by
  induction m with
  | nil =>
    by_cases h : i = j <;> simp [addToMap, toFun, lookupA, h]
  | cons p rest ih =>
    by_cases hpi : p.1 = i
    · subst hpi
      by_cases hpj : p.1 = j
      · simp [addToMap, toFun, lookupA, hpj]
      · simp [addToMap, toFun, lookupA, hpj]
    · simp only [addToMap, if_neg hpi]
      by_cases hpj : p.1 = j
      · have hij : ¬(i = j) := fun h => hpi (hpj.trans h.symm)
        simp [toFun, lookupA, hpj, hij]
      · simp only [toFun, lookupA, if_neg hpj]
        exact ih

lemma mem_keysA_addToMap (m : List (ℕ × K)) (i : ℕ) (x : K) (j : ℕ) :
    j ∈ keysA (addToMap m i x) ↔ j ∈ keysA m ∨ j = i := by
  induction m with
  | nil => simp [addToMap, keysA, eq_comm]
  | cons p rest ih =>
    by_cases hpi : p.1 = i
    · subst hpi
      have he : addToMap (p :: rest) p.1 x = (p.1, p.2 + x) :: rest := by
        simp [addToMap]
      rw [he]
      simp only [keysA, List.map_cons, List.mem_cons]
      tauto
    · simp only [addToMap, if_neg hpi, keysA, List.map_cons, List.mem_cons]
      rw [show (addToMap rest i x).map Prod.fst = keysA (addToMap rest i x) from rfl, ih,
        show rest.map Prod.fst = keysA rest from rfl]
      tauto

lemma nodup_keysA_addToMap (m : List (ℕ × K)) (i : ℕ) (x : K)
    (hnd : (keysA m).Nodup) : (keysA (addToMap m i x)).Nodup := by
  induction m with
  | nil => simp [addToMap, keysA]
  | cons p rest ih =>
    simp only [keysA, List.map_cons, List.nodup_cons] at hnd
    by_cases hpi : p.1 = i
    · simp only [addToMap, if_pos hpi, keysA, List.map_cons, List.nodup_cons]
      exact ⟨hnd.1, hnd.2⟩
    · simp only [addToMap, if_neg hpi, keysA, List.map_cons, List.nodup_cons]
      refine ⟨?_, ih hnd.2⟩
      rw [show (addToMap rest i x).map Prod.fst = keysA (addToMap rest i x) from rfl,
        mem_keysA_addToMap]
      rintro (h | h)
      · exact hnd.1 h
      · exact hpi h

lemma toFun_addFeatures (v : SV K) :
    ∀ (m : List (ℕ × K)) (j : ℕ), toFun (addFeatures m v) j = toFun m j + vsum v j := by
  induction v with
  | nil => intro m j; simp [addFeatures, vsum]
  | cons p v ih =>
    intro m j
    rw [show addFeatures m (p :: v) = addFeatures (addToMap m p.1 p.2) v from rfl]
    rw [ih, toFun_addToMap]
    simp only [vsum, List.map_cons, List.sum_cons]
    by_cases h : p.1 = j
    · simp only [h, if_pos rfl]
      ring
    · simp only [if_neg h]
      ring

lemma mem_keysA_addFeatures (v : SV K) :
    ∀ (m : List (ℕ × K)) (j : ℕ),
      j ∈ keysA (addFeatures m v) ↔ j ∈ keysA m ∨ j ∈ keysA v := by
  induction v with
  | nil => intro m j; simp [addFeatures, keysA]
  | cons p v ih =>
    intro m j
    rw [show addFeatures m (p :: v) = addFeatures (addToMap m p.1 p.2) v from rfl]
    rw [ih, mem_keysA_addToMap]
    simp only [keysA, List.map_cons, List.mem_cons]
    tauto

lemma nodup_keysA_addFeatures (v : SV K) :
    ∀ (m : List (ℕ × K)), (keysA m).Nodup → (keysA (addFeatures m v)).Nodup := by
  induction v with
  | nil => intro m h; exact h
  | cons p v ih =>
    intro m h
    rw [show addFeatures m (p :: v) = addFeatures (addToMap m p.1 p.2) v from rfl]
    exact ih _ (nodup_keysA_addToMap _ _ _ h)

/-- Accumulated entry map of a list of sparse vectors. -/
def mapSum (vs : List (SV K)) : List (ℕ × K) :=
  vs.foldl addFeatures []

lemma toFun_foldl_addFeatures (vs : List (SV K)) :
    ∀ (m : List (ℕ × K)) (j : ℕ),
      toFun (vs.foldl addFeatures m) j = toFun m j + (vs.map (fun v => vsum v j)).sum := by
  induction vs with
  | nil => intro m j; simp
  | cons v vs ih =>
    intro m j
    rw [List.foldl_cons, ih, toFun_addFeatures]
    simp only [List.map_cons, List.sum_cons]
    ring

lemma toFun_mapSum (vs : List (SV K)) (j : ℕ) :
    toFun (mapSum vs) j = (vs.map (fun v => vsum v j)).sum := by
  rw [mapSum, toFun_foldl_addFeatures]
  simp [toFun, lookupA]

lemma mem_keysA_foldl_addFeatures (vs : List (SV K)) :
    ∀ (m : List (ℕ × K)) (j : ℕ),
      j ∈ keysA (vs.foldl addFeatures m) ↔ j ∈ keysA m ∨ ∃ v ∈ vs, j ∈ keysA v := by
  induction vs with
  | nil => intro m j; simp
  | cons v vs ih =>
    intro m j
    rw [List.foldl_cons, ih, mem_keysA_addFeatures]
    simp only [List.mem_cons]
    constructor
    · rintro ((h | h) | ⟨w, hw, hj⟩)
      · exact Or.inl h
      · exact Or.inr ⟨v, Or.inl rfl, h⟩
      · exact Or.inr ⟨w, Or.inr hw, hj⟩
    · rintro (h | ⟨w, (rfl | hw), hj⟩)
      · exact Or.inl (Or.inl h)
      · exact Or.inl (Or.inr hj)
      · exact Or.inr ⟨w, hw, hj⟩

lemma mem_keysA_mapSum (vs : List (SV K)) (j : ℕ) :
    j ∈ keysA (mapSum vs) ↔ ∃ v ∈ vs, j ∈ keysA v := by
  rw [mapSum, mem_keysA_foldl_addFeatures]
  simp [keysA]

lemma nodup_keysA_mapSum (vs : List (SV K)) : (keysA (mapSum vs)).Nodup := by
  rw [mapSum]
  have h : ∀ (m : List (ℕ × K)), (keysA m).Nodup → (keysA (vs.foldl addFeatures m)).Nodup := by
    induction vs with
    | nil => intro m h; exact h
    | cons v vs ih =>
      intro m h
      rw [List.foldl_cons]
      exact ih _ (nodup_keysA_addFeatures _ _ h)
  exact h [] (by simp [keysA])

lemma lookupA_eq_none_iff {α : Type} (m : List (ℕ × α)) (j : ℕ) :
    lookupA m j = none ↔ j ∉ keysA m := by
  induction m with
  | nil => simp [lookupA, keysA]
  | cons p rest ih =>
    by_cases h : p.1 = j
    · simp [lookupA, keysA, h]
    · simp only [lookupA, if_neg h, ih, keysA, List.map_cons, List.mem_cons]
      constructor
      · intro hn hmem
        rcases hmem with h1 | h1
        · exact h h1.symm
        · exact hn h1
      · intro hn h1
        exact hn (Or.inr h1)

lemma lookupA_mem {α : Type} (m : List (ℕ × α)) (j : ℕ) (x : α)
    (h : lookupA m j = some x) : (j, x) ∈ m := by
  induction m with
  | nil => simp [lookupA] at h
  | cons p rest ih =>
    by_cases hp : p.1 = j
    · rw [lookupA, if_pos hp] at h
      have hx : p = (j, x) := by
        rw [Prod.ext_iff]
        exact ⟨hp, Option.some.inj h⟩
      rw [← hx]
      exact List.mem_cons_self p rest
    · rw [lookupA, if_neg hp] at h
      exact List.mem_cons_of_mem _ (ih h)

lemma entries_nodup_of_keys {α : Type} (m : List (ℕ × α)) (h : (keysA m).Nodup) :
    m.Nodup :=
  List.Nodup.of_map Prod.fst h

lemma perm_of_lookup_eq {α : Type} (m1 m2 : List (ℕ × α))
    (h1 : (keysA m1).Nodup) (h2 : (keysA m2).Nodup)
    (h : ∀ j, lookupA m1 j = lookupA m2 j) : m1.Perm m2 := by
  rw [List.perm_ext_iff_of_nodup (entries_nodup_of_keys m1 h1) (entries_nodup_of_keys m2 h2)]
  intro q
  constructor
  · intro hq
    exact lookupA_mem m2 q.1 q.2 ((h q.1).symm.trans (lookupA_of_mem_nodup m1 q h1 hq))
  · intro hq
    exact lookupA_mem m1 q.1 q.2 ((h q.1).trans (lookupA_of_mem_nodup m2 q h2 hq))

lemma from_map_perm (m : List (ℕ × K)) : (from_map m).Perm m :=
  List.perm_insertionSort keyLe m

lemma sorted_keyLt_from_map (m : List (ℕ × K)) (hnd : (keysA m).Nodup) :
    List.Sorted keyLt (from_map m) := by
  have hle : List.Sorted keyLe (from_map m) := List.sorted_insertionSort keyLe m
  have hkeys : (keysA (from_map m)).Nodup := by
    have hp : (keysA (from_map m)).Perm (keysA m) := (from_map_perm m).map Prod.fst
    exact hp.nodup_iff.mpr hnd
  have hne : (from_map m).Pairwise (fun p q => p.1 ≠ q.1) :=
    List.pairwise_map.mp hkeys
  have hand := List.Pairwise.and hle hne
  exact hand.imp (fun h => lt_of_le_of_ne h.1 h.2)

lemma lookupA_eq_some_toFun (m : List (ℕ × K)) (j : ℕ) (h : j ∈ keysA m) :
    lookupA m j = some (toFun m j) := by
  cases he : lookupA m j with
  | none => exact absurd ((lookupA_eq_none_iff m j).mp he) (fun h' => h' h)
  | some x =>
    rw [toFun, he]
    rfl

lemma from_map_congr (m1 m2 : List (ℕ × K))
    (h1 : (keysA m1).Nodup) (h2 : (keysA m2).Nodup)
    (h : ∀ j, lookupA m1 j = lookupA m2 j) : from_map m1 = from_map m2 := by
  have hp : (from_map m1).Perm (from_map m2) :=
    ((from_map_perm m1).trans (perm_of_lookup_eq m1 m2 h1 h2 h)).trans (from_map_perm m2).symm
  exact List.eq_of_perm_of_sorted hp (sorted_keyLt_from_map m1 h1) (sorted_keyLt_from_map m2 h2)

lemma from_map_mapSum_perm (vs1 vs2 : List (SV K)) (h : vs1.Perm vs2) :
    from_map (mapSum vs1) = from_map (mapSum vs2) := by
  apply from_map_congr _ _ (nodup_keysA_mapSum vs1) (nodup_keysA_mapSum vs2)
  intro j
  by_cases hm : j ∈ keysA (mapSum vs1)
  · have hm2 : j ∈ keysA (mapSum vs2) := by
      rw [mem_keysA_mapSum] at hm ⊢
      obtain ⟨v, hv, hj⟩ := hm
      exact ⟨v, h.mem_iff.mp hv, hj⟩
    rw [lookupA_eq_some_toFun _ _ hm, lookupA_eq_some_toFun _ _ hm2,
      toFun_mapSum, toFun_mapSum, (h.map (fun v => vsum v j)).sum_eq]
  · have hm2 : j ∉ keysA (mapSum vs2) := by
      rw [mem_keysA_mapSum] at hm ⊢
      intro ⟨v, hv, hj⟩
      exact hm ⟨v, h.mem_iff.mpr hv, hj⟩
    rw [(lookupA_eq_none_iff _ _).mpr hm, (lookupA_eq_none_iff _ _).mpr hm2]

lemma enum_snd_fst (ro : List (ℕ × K)) :
    ro.enum.map (fun p => p.2.1) = ro.map Prod.fst := by
  have h : ro.enum.map Prod.snd = ro := by
    rw [show ro.enum = ro.enumFrom 0 from rfl]
    exact List.enumFrom_map_snd 0 ro
  have h2 : ro.enum.map (fun p => p.2.1) = (ro.enum.map Prod.snd).map Prod.fst := by
    rw [List.map_map]
    rfl
  rw [h2, h]

lemma rank_of_mem_enum {sims : List (K × K)} {ro : List (ℕ × K)}
    (hro : ro.Perm (indexDiffPairs sims)) {p : ℕ × (ℕ × K)} (hp : p ∈ ro.enum) :
    rankOf ro p.2.1 = p.1 ∧ p.2.1 < sims.length := by
  have hg : ro.get? p.1 = some p.2 := List.mem_enum_iff_get?.mp hp
  obtain ⟨hlt, hget0⟩ := List.get?_eq_some.mp hg
  have hget : ro[p.1] = p.2 := hget0
  have hklt : p.1 < (ro.map Prod.fst).length := by simpa using hlt
  have hkey : (ro.map Prod.fst)[p.1] = p.2.1 := by
    rw [List.getElem_map, hget]
  constructor
  · rw [rankOf, ← hkey]
    exact List.indexOf_getElem (reorder_keys_nodup hro) p.1 hklt
  · have hmem : p.2.1 ∈ ro.map Prod.fst := by
      rw [← hkey]
      exact List.getElem_mem hklt
    rw [(reorder_keys_perm hro).mem_iff, List.mem_range] at hmem
    exact hmem

lemma parts_of_mem_enum {sims : List (K × K)} {ro : List (ℕ × K)}
    (hro : ro.Perm (indexDiffPairs sims)) {p : ℕ × (ℕ × K)} (hp : p ∈ ro.enum) :
    (partitionsOf sims.length ro).getD p.2.1 false =
      decide (midRank sims.length < p.1) := by
  obtain ⟨h1, h2⟩ := rank_of_mem_enum hro hp
  rw [partitionsOf_getD hro h2, h1]

lemma enum_side_perm {α : Type} {sims : List (K × K)} {ro : List (ℕ × K)}
    (hro : ro.Perm (indexDiffPairs sims)) (f : Bool → ℕ → α) :
    (ro.enum.map (fun p => f (decide (midRank sims.length < p.1)) p.2.1)).Perm
      ((List.range sims.length).map
        (fun i => f ((partitionsOf sims.length ro).getD i false) i)) := by
  have h1 : ro.enum.map (fun p => f (decide (midRank sims.length < p.1)) p.2.1) =
      ro.enum.map (fun p => f ((partitionsOf sims.length ro).getD p.2.1 false) p.2.1) := by
    apply List.map_congr_left
    intro p hp
    rw [parts_of_mem_enum hro hp]
  have h2 : ro.enum.map (fun p => f ((partitionsOf sims.length ro).getD p.2.1 false) p.2.1) =
      (ro.enum.map (fun p => p.2.1)).map
        (fun i => f ((partitionsOf sims.length ro).getD i false) i) := by
    rw [List.map_map]
    rfl
  rw [h1, h2, enum_snd_fst]
  exact ((reorder_keys_perm hro).map _).trans (List.Perm.refl _)

lemma foldl_add_eq_sum {α : Type} (f : α → K) (l : List α) :
    ∀ (a : K), l.foldl (fun acc p => acc + f p) a = a + (l.map f).sum := by
  induction l with
  | nil => intro a; simp
  | cons p l ih =>
    intro a
    rw [List.foldl_cons, ih, List.map_cons, List.sum_cons]
    ring

lemma totalSim_eq_sum {sims : List (K × K)} {ro : List (ℕ × K)}
    (hro : ro.Perm (indexDiffPairs sims)) :
    totalSim sims sims.length ro =
      ((List.range sims.length).map (fun i =>
        if (partitionsOf sims.length ro).getD i false then (sims.getD i (0, 0)).2
        else (sims.getD i (0, 0)).1)).sum := by
  rw [totalSim, foldl_add_eq_sum
    (fun p => if midRank sims.length < p.1 then (sims.getD p.2.1 (0, 0)).2
      else (sims.getD p.2.1 (0, 0)).1) ro.enum 0, zero_add]
  have h1 : ro.enum.map (fun p =>
      if midRank sims.length < p.1 then (sims.getD p.2.1 (0, 0)).2
      else (sims.getD p.2.1 (0, 0)).1) =
      ro.enum.map (fun p =>
        (fun (b : Bool) (i : ℕ) => if b then (sims.getD i (0, 0)).2 else (sims.getD i (0, 0)).1)
          (decide (midRank sims.length < p.1)) p.2.1) := by
    apply List.map_congr_left
    intro p _
    by_cases h : midRank sims.length < p.1 <;> simp [h]
  rw [h1]
  exact (enum_side_perm hro
    (fun (b : Bool) (i : ℕ) =>
      if b then (sims.getD i (0, 0)).2 else (sims.getD i (0, 0)).1)).sum_eq

lemma centroidMaps_foldl (vectors : List (SV K)) (n : ℕ) (l : List (ℕ × (ℕ × K))) :
    ∀ (ms : List (ℕ × K) × List (ℕ × K)),
      l.foldl (fun ms p =>
        if midRank n < p.1 then (ms.1, addFeatures ms.2 (vectors.getD p.2.1 []))
        else (addFeatures ms.1 (vectors.getD p.2.1 []), ms.2)) ms =
      (((l.filter (fun p => decide (midRank n < p.1) == false)).map
          (fun p => vectors.getD p.2.1 [])).foldl addFeatures ms.1,
       ((l.filter (fun p => decide (midRank n < p.1) == true)).map
          (fun p => vectors.getD p.2.1 [])).foldl addFeatures ms.2) := by
  induction l with
  | nil => intro ms; simp
  | cons p l ih =>
    intro ms
    rw [List.foldl_cons]
    by_cases h : midRank n < p.1
    · rw [if_pos h, ih, List.filter_cons, List.filter_cons]
      simp [h]
    · rw [if_neg h, ih, List.filter_cons, List.filter_cons]
      simp [h]

/-- Vectors assigned to a given partition side, in input order
(spec section 4.3, step 3: vectors in each partition). -/
def assignedVectors (vectors : List (SV K)) (parts : List Bool) (b : Bool) : List (SV K) :=
  ((List.range vectors.length).filter (fun i => parts.getD i false == b)).map
    (fun i => vectors.getD i [])

/-- Sum of a list of sparse vectors into a single sparse vector. -/
def sumVectors (vs : List (SV K)) : SV K :=
  from_map (mapSum vs)

lemma sideList_perm {sims : List (K × K)} {ro : List (ℕ × K)} (vectors : List (SV K))
    (hro : ro.Perm (indexDiffPairs sims)) (hn : sims.length = vectors.length) (b : Bool) :
    ((ro.enum.filter (fun p => decide (midRank vectors.length < p.1) == b)).map
      (fun p => vectors.getD p.2.1 [])).Perm
      (assignedVectors vectors (partitionsOf vectors.length ro) b) := by
  rw [assignedVectors, ← hn]
  have hperm := (enum_side_perm hro
    (fun (s : Bool) (i : ℕ) => ((s == b : Bool), i))).filter (fun q => q.1)
  have hmap := hperm.map (fun q : Bool × ℕ => vectors.getD q.2 [])
  have h1 : ((ro.enum.map (fun p => ((decide (midRank sims.length < p.1) == b : Bool), p.2.1))).filter
      (fun q => q.1)).map (fun q : Bool × ℕ => vectors.getD q.2 []) =
      (ro.enum.filter (fun p => decide (midRank sims.length < p.1) == b)).map
        (fun p => vectors.getD p.2.1 []) := by
    rw [List.filter_map, List.map_map]
    rfl
  have h2 : (((List.range sims.length).map
      (fun i => (((partitionsOf sims.length ro).getD i false == b : Bool), i))).filter
      (fun q => q.1)).map (fun q : Bool × ℕ => vectors.getD q.2 []) =
      ((List.range sims.length).filter
        (fun i => (partitionsOf sims.length ro).getD i false == b)).map
        (fun i => vectors.getD i []) := by
    rw [List.filter_map, List.map_map]
    rfl
  rw [h1, h2] at hmap
  exact hmap

lemma centroids_of_iterate {sims : List (K × K)} (sq : K → K) (vectors : List (SV K))
    (c : SV K × SV K) (ro : List (ℕ × K)) (hsims : sims = simsOf c vectors)
    (hro : ro.Perm (indexDiffPairs sims)) :
    (balanced_2means_iterate sq vectors c ro).2.1 =
      (l2_normalize sq (sumVectors (assignedVectors vectors
        (balanced_2means_iterate sq vectors c ro).1 false)),
       l2_normalize sq (sumVectors (assignedVectors vectors
        (balanced_2means_iterate sq vectors c ro).1 true))) := by
  have hn : sims.length = vectors.length := by rw [hsims]; simp [simsOf]
  have hparts : (balanced_2means_iterate sq vectors c ro).1 =
      partitionsOf vectors.length ro := rfl
  have hcm : centroidMaps vectors vectors.length ro =
      (mapSum ((ro.enum.filter (fun p => decide (midRank vectors.length < p.1) == false)).map
        (fun p => vectors.getD p.2.1 [])),
       mapSum ((ro.enum.filter (fun p => decide (midRank vectors.length < p.1) == true)).map
        (fun p => vectors.getD p.2.1 []))) := by
    rw [centroidMaps, centroidMaps_foldl]
    rfl
  have hiter : (balanced_2means_iterate sq vectors c ro).2.1 =
      (l2_normalize sq (from_map (centroidMaps vectors vectors.length ro).1),
       l2_normalize sq (from_map (centroidMaps vectors vectors.length ro).2)) := rfl
  rw [hiter, hcm, hparts]
  have hfalse := from_map_mapSum_perm _ _ (sideList_perm vectors hro hn false)
  have htrue := from_map_mapSum_perm _ _ (sideList_perm vectors hro hn true)
  rw [show ((mapSum ((ro.enum.filter (fun p => decide (midRank vectors.length < p.1) == false)).map
        (fun p => vectors.getD p.2.1 [])),
       mapSum ((ro.enum.filter (fun p => decide (midRank vectors.length < p.1) == true)).map
        (fun p => vectors.getD p.2.1 []))) : List (ℕ × K) × List (ℕ × K)).1 =
      mapSum ((ro.enum.filter (fun p => decide (midRank vectors.length < p.1) == false)).map
        (fun p => vectors.getD p.2.1 [])) from rfl]
  rw [show ((mapSum ((ro.enum.filter (fun p => decide (midRank vectors.length < p.1) == false)).map
        (fun p => vectors.getD p.2.1 [])),
       mapSum ((ro.enum.filter (fun p => decide (midRank vectors.length < p.1) == true)).map
        (fun p => vectors.getD p.2.1 []))) : List (ℕ × K) × List (ℕ × K)).2 =
      mapSum ((ro.enum.filter (fun p => decide (midRank vectors.length < p.1) == true)).map
        (fun p => vectors.getD p.2.1 [])) from rfl]
  rw [sumVectors, sumVectors, hfalse, htrue]

/-- Claim C6: at the end of each `balanced_2means_iterate` call, each
centroid equals the l2-normalized sum of the vectors assigned to its
partition in that iteration; neither the sum nor the normalized result is
pruned with any threshold. -/
theorem claim_C6 (sq : K → K) (vectors : List (SV K)) (c : SV K × SV K) (ro : List (ℕ × K))
    (hro : ValidReorder (simsOf c vectors) vectors.length ro) :
    (balanced_2means_iterate sq vectors c ro).2.1.1 =
      l2_normalize sq (sumVectors (assignedVectors vectors
        (balanced_2means_iterate sq vectors c ro).1 false)) ∧
    (balanced_2means_iterate sq vectors c ro).2.1.2 =
      l2_normalize sq (sumVectors (assignedVectors vectors
        (balanced_2means_iterate sq vectors c ro).1 true)) := by
  have h := centroids_of_iterate sq vectors c ro rfl hro.1
  exact ⟨congrArg Prod.fst h, congrArg Prod.snd h⟩

theorem claim_C6_witness :
    (balanced_2means_iterate (id : ℚ → ℚ) twoVecs cW (insSel twoVecs cW)).2.1.1 =
      l2_normalize id (sumVectors (assignedVectors twoVecs
        (balanced_2means_iterate (id : ℚ → ℚ) twoVecs cW (insSel twoVecs cW)).1 false)) ∧
    (balanced_2means_iterate (id : ℚ → ℚ) twoVecs cW (insSel twoVecs cW)).2.1.2 =
      l2_normalize id (sumVectors (assignedVectors twoVecs
        (balanced_2means_iterate (id : ℚ → ℚ) twoVecs cW (insSel twoVecs cW)).1 true)) :=
  claim_C6 id twoVecs cW (insSel twoVecs cW) (insSel_valid twoVecs cW)

lemma sims_getD_eq (c : SV K × SV K) (vectors : List (SV K)) {i : ℕ}
    (hi : i < vectors.length) :
    (simsOf c vectors).getD i (0, 0) =
      (dot c.1 (vectors.getD i []), dot c.2 (vectors.getD i [])) := by
  have hl : i < (simsOf c vectors).length := by simpa [simsOf] using hi
  rw [List.getD_eq_getElem _ _ hl, List.getD_eq_getElem _ _ hi]
  simp [simsOf]

lemma avg_eq_sum (sq : K → K) (vectors : List (SV K)) (c : SV K × SV K) (ro : List (ℕ × K))
    (hro : ro.Perm (indexDiffPairs (simsOf c vectors))) :
    (balanced_2means_iterate sq vectors c ro).2.2 =
      ((List.range vectors.length).map (fun i =>
        if (balanced_2means_iterate sq vectors c ro).1.getD i false
        then dot c.2 (vectors.getD i [])
        else dot c.1 (vectors.getD i []))).sum / vectors.length := by
  have hlen : (simsOf c vectors).length = vectors.length := by simp [simsOf]
  have havg : (balanced_2means_iterate sq vectors c ro).2.2 =
      totalSim (simsOf c vectors) vectors.length ro / (vectors.length : K) := rfl
  have hparts : (balanced_2means_iterate sq vectors c ro).1 =
      partitionsOf vectors.length ro := rfl
  rw [havg, hparts, ← hlen, totalSim_eq_sum hro]
  congr 1
  apply congrArg List.sum
  apply List.map_congr_left
  intro i hi
  rw [List.mem_range] at hi
  rw [sims_getD_eq c vectors (hlen ▸ hi)]

/-- The three examples of the label-centroid scenario
(mod.rs test_compute_label_vectors). -/
def c4Examples : List (Example ℝ) :=
  [⟨[(0, 1), (2, 2)], [0, 1]⟩,
   ⟨[(1, 1), (3, 2)], [0, 2]⟩,
   ⟨[(0, 1), (3, 2)], [1, 2]⟩]

/-- Claim C4: on the concrete three-example input with threshold
1/sqrt 18 + 1e-4, the label-centroid builder returns exactly the expected
mapping, the two below-threshold entries of label 2 being pruned. -/
theorem claim_C4 :
    compute_feature_vectors_per_label Real.sqrt c4Examples (1 / Real.sqrt 18 + 1e-4) =
      ([0, 1, 2],
       [[(0, 1 / Real.sqrt 10), (1, 1 / Real.sqrt 10), (2, 2 / Real.sqrt 10),
         (3, 2 / Real.sqrt 10)],
        [(0, 2 / Real.sqrt 12), (2, 2 / Real.sqrt 12), (3, 2 / Real.sqrt 12)],
        [(3, 4 / Real.sqrt 18)]]) := by
  have hm : c4Examples.foldl accumExample [] =
      [(0, [(0, (1:ℝ)), (2, 2), (1, 1), (3, 2)]),
       (1, [(0, 2), (2, 2), (3, 2)]),
       (2, [(1, 1), (3, 4), (0, 1)])] := by
    norm_num [-Prod.mk_one_one, -Prod.mk_zero_zero, c4Examples, accumExample,
      updateEntry, addFeatures, addToMap]
  have hs10 : (0:ℝ) < Real.sqrt 10 := Real.sqrt_pos.mpr (by norm_num)
  have hs12 : (0:ℝ) < Real.sqrt 12 := Real.sqrt_pos.mpr (by norm_num)
  have hs18 : (0:ℝ) < Real.sqrt 18 := Real.sqrt_pos.mpr (by norm_num)
  have hb10 : Real.sqrt 10 < 3.163 := by
    rw [Real.sqrt_lt' (by norm_num)]
    norm_num
  have hb12 : Real.sqrt 12 < 3.465 := by
    rw [Real.sqrt_lt' (by norm_num)]
    norm_num
  have hb18 : (4.242:ℝ) < Real.sqrt 18 := by
    rw [Real.lt_sqrt (by norm_num)]
    norm_num
  have hthr : 1 / Real.sqrt 18 + 1e-4 < 1 / 4.242 + 1e-4 := by
    have h := one_div_lt_one_div_of_lt (by norm_num : (0:ℝ) < 4.242) hb18
    linarith
  have hA : 1 / Real.sqrt 18 + 1e-4 ≤ 1 / Real.sqrt 10 := by
    have h4 : (1:ℝ) / 3.163 < 1 / Real.sqrt 10 := one_div_lt_one_div_of_lt hs10 hb10
    have h5 : (1:ℝ) / 4.242 + 1e-4 ≤ 1 / 3.163 := by norm_num
    linarith
  have hC : 1 / Real.sqrt 18 + 1e-4 ≤ 2 / Real.sqrt 12 := by
    have h4 : (2:ℝ) / 3.465 < 2 / Real.sqrt 12 := by
      apply div_lt_div_of_pos_left (by norm_num) hs12 hb12
    have h5 : (1:ℝ) / 4.242 + 1e-4 ≤ 2 / 3.465 := by norm_num
    linarith
  have hb18u : Real.sqrt 18 < 4.25 := by
    rw [Real.sqrt_lt' (by norm_num)]
    norm_num
  have hE : 1 / Real.sqrt 18 + 1e-4 ≤ 4 / Real.sqrt 18 := by
    have h4 : (4:ℝ) / Real.sqrt 18 = 4 * (1 / Real.sqrt 18) := by ring
    have h7 : (1:ℝ) / 4.25 < 1 / Real.sqrt 18 :=
      one_div_lt_one_div_of_lt hs18 hb18u
    rw [h4]
    linarith
  have hD : ¬(1 / Real.sqrt 18 + 1e-4 ≤ |1 / Real.sqrt 18|) := by
    rw [abs_of_pos (by positivity)]
    norm_num
  have hnz10 : Real.sqrt 10 ≠ 0 := ne_of_gt hs10
  have hnz12 : Real.sqrt 12 ≠ 0 := ne_of_gt hs12
  have hnz18 : Real.sqrt 18 ≠ 0 := ne_of_gt hs18
  have hfm0 : from_map [(0, (1:ℝ)), (2, 2), (1, 1), (3, 2)] =
      [(0, (1:ℝ)), (1, 1), (2, 2), (3, 2)] := by
    norm_num [-Prod.mk_one_one, -Prod.mk_zero_zero, from_map, List.insertionSort,
      List.orderedInsert, keyLe]
  have hfm1 : from_map [(0, (2:ℝ)), (2, 2), (3, 2)] = [(0, (2:ℝ)), (2, 2), (3, 2)] := by
    norm_num [-Prod.mk_one_one, -Prod.mk_zero_zero, from_map, List.insertionSort,
      List.orderedInsert, keyLe]
  have hfm2 : from_map [(1, (1:ℝ)), (3, 4), (0, 1)] =
      [(0, (1:ℝ)), (1, 1), (3, 4)] := by
    norm_num [-Prod.mk_one_one, -Prod.mk_zero_zero, from_map, List.insertionSort,
      List.orderedInsert, keyLe]
  have hsum0 : sumSquares [(0, (1:ℝ)), (1, 1), (2, 2), (3, 2)] = 10 := by
    norm_num [sumSquares]
  have hsum1 : sumSquares [(0, (2:ℝ)), (2, 2), (3, 2)] = 12 := by
    norm_num [sumSquares]
  have hsum2 : sumSquares [(0, (1:ℝ)), (1, 1), (3, 4)] = 18 := by
    norm_num [sumSquares]
  have hn0 : l2_normalize Real.sqrt [(0, (1:ℝ)), (1, 1), (2, 2), (3, 2)] =
      [(0, 1 / Real.sqrt 10), (1, 1 / Real.sqrt 10), (2, 2 / Real.sqrt 10),
       (3, 2 / Real.sqrt 10)] := by
    simp only [l2_normalize, hsum0, if_neg hnz10, List.map]
  have hn1 : l2_normalize Real.sqrt [(0, (2:ℝ)), (2, 2), (3, 2)] =
      [(0, 2 / Real.sqrt 12), (2, 2 / Real.sqrt 12), (3, 2 / Real.sqrt 12)] := by
    simp only [l2_normalize, hsum1, if_neg hnz12, List.map]
  have hn2 : l2_normalize Real.sqrt [(0, (1:ℝ)), (1, 1), (3, 4)] =
      [(0, 1 / Real.sqrt 18), (1, 1 / Real.sqrt 18), (3, 4 / Real.sqrt 18)] := by
    simp only [l2_normalize, hsum2, if_neg hnz18, List.map]
  have habs1 : 1 / Real.sqrt 18 + 1e-4 ≤ |1 / Real.sqrt 10| := by
    rw [abs_of_pos (by positivity)]
    exact hA
  have habs2 : 1 / Real.sqrt 18 + 1e-4 ≤ |2 / Real.sqrt 10| := by
    rw [abs_of_pos (by positivity)]
    have h : (1:ℝ) / Real.sqrt 10 ≤ 2 / Real.sqrt 10 := by
      gcongr
      norm_num
    linarith
  have habs3 : 1 / Real.sqrt 18 + 1e-4 ≤ |2 / Real.sqrt 12| := by
    rw [abs_of_pos (by positivity)]
    exact hC
  have habs4 : 1 / Real.sqrt 18 + 1e-4 ≤ |4 / Real.sqrt 18| := by
    rw [abs_of_pos (by positivity)]
    exact hE
  have hp0 : prune_with_threshold (1 / Real.sqrt 18 + 1e-4)
      [(0, 1 / Real.sqrt 10), (1, 1 / Real.sqrt 10), (2, 2 / Real.sqrt 10),
       (3, 2 / Real.sqrt 10)] =
      [(0, 1 / Real.sqrt 10), (1, 1 / Real.sqrt 10), (2, 2 / Real.sqrt 10),
       (3, 2 / Real.sqrt 10)] := by
    simp [-one_div, prune_with_threshold, habs1, habs2]
  have hp1 : prune_with_threshold (1 / Real.sqrt 18 + 1e-4)
      [(0, 2 / Real.sqrt 12), (2, 2 / Real.sqrt 12), (3, 2 / Real.sqrt 12)] =
      [(0, 2 / Real.sqrt 12), (2, 2 / Real.sqrt 12), (3, 2 / Real.sqrt 12)] := by
    simp [-one_div, prune_with_threshold, habs3]
  have hp2 : prune_with_threshold (1 / Real.sqrt 18 + 1e-4)
      [(0, 1 / Real.sqrt 18), (1, 1 / Real.sqrt 18), (3, 4 / Real.sqrt 18)] =
      [(3, 4 / Real.sqrt 18)] := by
    simp [-one_div, prune_with_threshold, habs4, hD]
  simp only [compute_feature_vectors_per_label, hm, List.map_cons, List.map_nil]
  rw [hfm0, hfm1, hfm2, hn0, hn1, hn2, hp0, hp1, hp2]

/-- The four vectors of the single-iteration scenario
(mod.rs test_balanced_2means_iterate). -/
noncomputable def c5Vectors : List (SV ℝ) :=
  [[(0, 1)], [(1, -1)], [(0, 0.5), (1, Real.sqrt 0.75)],
   [(0, -Real.sqrt 0.75), (1, -0.5)]]

/-- The initial centroids of the single-iteration scenario. -/
noncomputable def c5Centroids : SV ℝ × SV ℝ :=
  ([(0, Real.sqrt 0.5), (1, Real.sqrt 0.5)], [(0, -Real.sqrt 0.5), (1, -Real.sqrt 0.5)])

/-- A reordering of the index-difference pairs of the scenario satisfying
the `kth_by` contract (differences descending: vector 2, 0, 1, 3). -/
noncomputable def c5Reorder : List (ℕ × ℝ) :=
  [(2, 2 * Real.sqrt 0.5 * (0.5 + Real.sqrt 0.75)),
   (0, 2 * Real.sqrt 0.5),
   (1, -(2 * Real.sqrt 0.5)),
   (3, -(2 * Real.sqrt 0.5 * (0.5 + Real.sqrt 0.75)))]

lemma c5_diffs :
    indexDiffPairs (simsOf c5Centroids c5Vectors) =
      [(0, 2 * Real.sqrt 0.5),
       (1, -(2 * Real.sqrt 0.5)),
       (2, 2 * Real.sqrt 0.5 * (0.5 + Real.sqrt 0.75)),
       (3, -(2 * Real.sqrt 0.5 * (0.5 + Real.sqrt 0.75)))] := by
  have hr4 : List.range 4 = [0, 1, 2, 3] := rfl
  norm_num [-Prod.mk_one_one, -Prod.mk_zero_zero, indexDiffPairs, simsOf, diffAt,
    dot.eq_1, dot.eq_2, dot.eq_3, c5Vectors, c5Centroids, hr4]
  ring_nf
  norm_num

lemma c5_valid :
    ValidReorder (simsOf c5Centroids c5Vectors) c5Vectors.length c5Reorder := by
  have hlen : c5Vectors.length = 4 := rfl
  have hmid : midRank 4 = 1 := rfl
  have hs5 : (0:ℝ) ≤ Real.sqrt 0.5 := Real.sqrt_nonneg _
  have hs75 : (0.5:ℝ) ≤ Real.sqrt 0.75 := by
    rw [Real.le_sqrt (by norm_num) (by norm_num)]
    norm_num
  refine ⟨?_, ?_, ?_⟩
  · rw [c5_diffs]
    have hperm1 : c5Reorder.Perm
        ((0, 2 * Real.sqrt 0.5) ::
          (2, 2 * Real.sqrt 0.5 * (0.5 + Real.sqrt 0.75)) ::
          [(1, -(2 * Real.sqrt 0.5)),
           (3, -(2 * Real.sqrt 0.5 * (0.5 + Real.sqrt 0.75)))]) :=
      List.Perm.swap _ _ _
    refine hperm1.trans ?_
    exact ((List.Perm.swap _ _ _).cons _)
  · intro r hr hrm
    rw [hlen, hmid] at hrm ⊢
    rw [show c5Reorder.length = 4 from rfl] at hr
    interval_cases r
    · show (c5Reorder.getD 1 (0, 0)).2 ≤ (c5Reorder.getD 0 (0, 0)).2
      show (2:ℝ) * Real.sqrt 0.5 ≤ 2 * Real.sqrt 0.5 * (0.5 + Real.sqrt 0.75)
      nlinarith
    · exact le_refl _
  · intro r hr hrm
    rw [hlen, hmid] at hrm ⊢
    rw [show c5Reorder.length = 4 from rfl] at hr
    interval_cases r
    · exact le_refl _
    · show (c5Reorder.getD 2 (0, 0)).2 ≤ (c5Reorder.getD 1 (0, 0)).2
      show -((2:ℝ) * Real.sqrt 0.5) ≤ 2 * Real.sqrt 0.5
      nlinarith
    · show (c5Reorder.getD 3 (0, 0)).2 ≤ (c5Reorder.getD 1 (0, 0)).2
      show -((2:ℝ) * Real.sqrt 0.5 * (0.5 + Real.sqrt 0.75)) ≤ 2 * Real.sqrt 0.5
      nlinarith

lemma c5_avg :
    (balanced_2means_iterate Real.sqrt c5Vectors c5Centroids c5Reorder).2.2 =
      Real.sqrt 0.5 * (3 + 2 * Real.sqrt 0.75) / 4 := by
  have h : (balanced_2means_iterate Real.sqrt c5Vectors c5Centroids c5Reorder).2.2 =
      totalSim (simsOf c5Centroids c5Vectors) 4 c5Reorder / (4:ℝ) := rfl
  rw [h]
  norm_num [-Prod.mk_one_one, -Prod.mk_zero_zero, totalSim, simsOf, dot.eq_1, dot.eq_2,
    dot.eq_3, c5Vectors, c5Centroids, c5Reorder, List.enumFrom, midRank,
    show List.enum (α := ℕ × ℝ) = List.enumFrom 0 from rfl]
  ring

/-- Claim C5: the value returned by `balanced_2means_iterate` is the average
of each vector's similarity to its assigned centroid (sum over all vectors
of `similarities[i][partitions[i]]`, divided by n), and on the concrete
four-vector scenario one iteration yields partitions
[false, true, false, true] with average similarity within 1e-6 of
0.8365163. -/
theorem claim_C5 :
    (∀ (sq : ℝ → ℝ) (vectors : List (SV ℝ)) (c : SV ℝ × SV ℝ) (ro : List (ℕ × ℝ)),
      ValidReorder (simsOf c vectors) vectors.length ro →
      (balanced_2means_iterate sq vectors c ro).2.2 =
        ((List.range vectors.length).map (fun i =>
          if (balanced_2means_iterate sq vectors c ro).1.getD i false
          then dot c.2 (vectors.getD i [])
          else dot c.1 (vectors.getD i []))).sum / vectors.length) ∧
    ValidReorder (simsOf c5Centroids c5Vectors) c5Vectors.length c5Reorder ∧
    (balanced_2means_iterate Real.sqrt c5Vectors c5Centroids c5Reorder).1 =
      [false, true, false, true] ∧
    |(balanced_2means_iterate Real.sqrt c5Vectors c5Centroids c5Reorder).2.2 -
      0.8365163| < 1e-6 := by
  refine ⟨?_, c5_valid, ?_, ?_⟩
  · intro sq vectors c ro hro
    exact avg_eq_sum sq vectors c ro hro.1
  · rfl
  · rw [c5_avg]
    have s5l : (0.7071067:ℝ) < Real.sqrt 0.5 := by
      rw [Real.lt_sqrt (by norm_num)]
      norm_num
    have s5u : Real.sqrt 0.5 < 0.7071068 := by
      rw [Real.sqrt_lt' (by norm_num)]
      norm_num
    have s75l : (0.8660254:ℝ) < Real.sqrt 0.75 := by
      rw [Real.lt_sqrt (by norm_num)]
      norm_num
    have s75u : Real.sqrt 0.75 < 0.8660255 := by
      rw [Real.sqrt_lt' (by norm_num)]
      norm_num
    rw [abs_lt]
    constructor <;> nlinarith

/-- Finite support of a sparse vector: the set of its indices. -/
def suppF (v : SV K) : Finset ℕ :=
  (v.map Prod.fst).toFinset

lemma mem_suppF {v : SV K} {j : ℕ} : j ∈ suppF v ↔ j ∈ keysA v := by
  rw [suppF, List.mem_toFinset]
  rfl

lemma suppF_cons (p : ℕ × K) (rest : SV K) :
    suppF (p :: rest) = insert p.1 (suppF rest) := by
  simp [suppF]

lemma toFun_nil (j : ℕ) : toFun ([] : SV K) j = 0 :=
  rfl

lemma toFun_cons (p : ℕ × K) (rest : SV K) (k : ℕ) :
    toFun (p :: rest) k = if p.1 = k then p.2 else toFun rest k := by
  by_cases h : p.1 = k <;> simp [toFun, lookupA, h]

lemma toFun_eq_zero_of_not_mem {v : SV K} {j : ℕ} (h : j ∉ suppF v) : toFun v j = 0 := by
  rw [mem_suppF] at h
  rw [toFun, (lookupA_eq_none_iff v j).mpr h]
  rfl

lemma sorted_pairwise {v : SV K} (hv : SVSorted v) :
    v.Pairwise keyLt := by
  rw [SVSorted] at hv
  exact List.chain'_iff_pairwise.mp hv

lemma sorted_tail {p : ℕ × K} {rest : SV K} (h : SVSorted (p :: rest)) : SVSorted rest :=
  (List.chain'_cons'.mp h).2

lemma sorted_head_lt {p : ℕ × K} {rest : SV K} (h : SVSorted (p :: rest)) :
    ∀ q ∈ rest, p.1 < q.1 := by
  have hp := sorted_pairwise h
  exact (List.pairwise_cons.mp hp).1

lemma sorted_head_not_mem {p : ℕ × K} {rest : SV K} (h : SVSorted (p :: rest)) :
    p.1 ∉ suppF rest := by
  rw [mem_suppF, keysA]
  intro hmem
  rcases List.mem_map.mp hmem with ⟨q, hq, hq1⟩
  exact absurd (hq1 ▸ sorted_head_lt h q hq) (lt_irrefl _)

lemma not_mem_suppF_of_lt_all {v : SV K} {i : ℕ} (h : ∀ q ∈ v, i < q.1) :
    i ∉ suppF v := by
  rw [mem_suppF, keysA]
  intro hmem
  rcases List.mem_map.mp hmem with ⟨q, hq, hq1⟩
  exact absurd (hq1 ▸ h q hq) (lt_irrefl _)

lemma dot_eq_sum (a b : SV K) (ha : SVSorted a) (hb : SVSorted b) :
    dot a b = ∑ i ∈ suppF a ∪ suppF b, toFun a i * toFun b i := by
  induction a, b using dot.induct with
  | case1 x =>
    rw [dot]
    symm
    apply Finset.sum_eq_zero
    intro i _
    rw [toFun_nil, zero_mul]
  | case2 x hx =>
    rw [dot.eq_def]
    match x, hx with
    | [], hx => exact absurd rfl hx
    | p :: xs, _ =>
      symm
      apply Finset.sum_eq_zero
      intro i _
      rw [toFun_nil, mul_zero]
  | case3 i x xs j y ys hij ih =>
    have hxs : SVSorted xs := sorted_tail ha
    have hib : i ∉ suppF ((j, y) :: ys) := by
      apply not_mem_suppF_of_lt_all
      intro q hq
      rcases List.mem_cons.mp hq with h | h
      · rw [h]
        exact hij
      · exact lt_trans hij (sorted_head_lt hb q h)
    have hixs : i ∉ suppF xs := sorted_head_not_mem ha
    have hiu : i ∉ suppF xs ∪ suppF ((j, y) :: ys) := by
      rw [Finset.mem_union]
      rintro (h | h)
      · exact hixs h
      · exact hib h
    rw [dot.eq_3, if_pos hij, ih hxs hb,
      show suppF ((i, x) :: xs) = insert i (suppF xs) from suppF_cons _ _,
      Finset.insert_union, Finset.sum_insert hiu]
    rw [toFun_eq_zero_of_not_mem hib, mul_zero, zero_add]
    apply Finset.sum_congr rfl
    intro k hk
    have hki : k ≠ i := fun h => hiu (h ▸ hk)
    rw [show toFun ((i, x) :: xs) k = if i = k then x else toFun xs k from toFun_cons _ _ _,
      if_neg (fun h => hki h.symm)]
  | case4 i x xs j y ys hij hji ih =>
    have hys : SVSorted ys := sorted_tail hb
    have hja : j ∉ suppF ((i, x) :: xs) := by
      apply not_mem_suppF_of_lt_all
      intro q hq
      rcases List.mem_cons.mp hq with h | h
      · rw [h]
        exact hji
      · exact lt_trans hji (sorted_head_lt ha q h)
    have hjys : j ∉ suppF ys := sorted_head_not_mem hb
    have hju : j ∉ suppF ((i, x) :: xs) ∪ suppF ys := by
      rw [Finset.mem_union]
      rintro (h | h)
      · exact hja h
      · exact hjys h
    rw [dot.eq_3, if_neg hij, if_pos hji, ih ha hys]
    rw [show suppF ((j, y) :: ys) = insert j (suppF ys) from suppF_cons _ _,
      Finset.union_insert, Finset.sum_insert hju]
    rw [toFun_eq_zero_of_not_mem hja, zero_mul, zero_add]
    apply Finset.sum_congr rfl
    intro k hk
    have hkj : k ≠ j := fun h => hju (h ▸ hk)
    rw [show toFun ((j, y) :: ys) k = if j = k then y else toFun ys k from toFun_cons _ _ _]
    rw [if_neg (fun h => hkj h.symm)]
  | case5 i x xs j y ys hij hji ih =>
    have heq : i = j := by omega
    subst heq
    have hxs : SVSorted xs := sorted_tail ha
    have hys : SVSorted ys := sorted_tail hb
    have hixs : i ∉ suppF xs := sorted_head_not_mem ha
    have hiys : i ∉ suppF ys := sorted_head_not_mem hb
    have hiu : i ∉ suppF xs ∪ suppF ys := by
      rw [Finset.mem_union]
      rintro (h | h)
      · exact hixs h
      · exact hiys h
    rw [dot.eq_3, if_neg hij, if_neg hji, ih hxs hys]
    rw [suppF_cons, suppF_cons, Finset.insert_union, Finset.union_insert,
      Finset.insert_idem, Finset.sum_insert hiu]
    have h1 : toFun ((i, x) :: xs) i = x := by
      rw [toFun_cons, if_pos rfl]
    have h2 : toFun ((i, y) :: ys) i = y := by
      rw [toFun_cons, if_pos rfl]
    rw [h1, h2]
    congr 1
    apply Finset.sum_congr rfl
    intro k hk
    have hki : k ≠ i := fun h => hiu (h ▸ hk)
    rw [toFun_cons, toFun_cons, if_neg (fun h => hki h.symm),
      if_neg (fun h => hki h.symm)]

lemma dot_eq_sum_superset (a b : SV K) (ha : SVSorted a) (hb : SVSorted b)
    (s : Finset ℕ) (hs : suppF a ∪ suppF b ⊆ s) :
    dot a b = ∑ i ∈ s, toFun a i * toFun b i := by
  rw [dot_eq_sum a b ha hb]
  apply Finset.sum_subset hs
  intro i _ hi
  rw [Finset.mem_union] at hi
  push_neg at hi
  rw [toFun_eq_zero_of_not_mem hi.1, zero_mul]

lemma sumSquares_eq_sum (v : SV K) (hv : SVSorted v) :
    sumSquares v = ∑ i ∈ suppF v, toFun v i ^ 2 := by
  induction v with
  | nil => simp [sumSquares, suppF]
  | cons p rest ih =>
    have hrest : SVSorted rest := sorted_tail hv
    have hpm : p.1 ∉ suppF rest := sorted_head_not_mem hv
    rw [show sumSquares (p :: rest) = p.2 * p.2 + sumSquares rest from by
      simp [sumSquares]]
    rw [ih hrest, suppF_cons, Finset.sum_insert hpm]
    have h1 : toFun (p :: rest) p.1 = p.2 := by
      rw [toFun_cons, if_pos rfl]
    rw [h1]
    congr 1
    · ring
    · apply Finset.sum_congr rfl
      intro k hk
      have hkp : k ≠ p.1 := fun h => hpm (h ▸ hk)
      rw [toFun_cons, if_neg (fun h => hkp h.symm)]

lemma sumSquares_eq_sum_superset (v : SV K) (hv : SVSorted v)
    (s : Finset ℕ) (hs : suppF v ⊆ s) :
    sumSquares v = ∑ i ∈ s, toFun v i ^ 2 := by
  rw [sumSquares_eq_sum v hv]
  apply Finset.sum_subset hs
  intro i _ hi
  rw [toFun_eq_zero_of_not_mem hi]
  ring

lemma sumSquares_nonneg (v : SV K) (hv : SVSorted v) : 0 ≤ sumSquares v := by
  rw [sumSquares_eq_sum v hv]
  apply Finset.sum_nonneg
  intro i _
  positivity

lemma abs_dot_le (a b : SV ℝ) (ha : SVSorted a) (hb : SVSorted b) :
    |dot a b| ≤ Real.sqrt (sumSquares a) * Real.sqrt (sumSquares b) := by
  set s := suppF a ∪ suppF b with hs
  have hda : dot a b = ∑ i ∈ s, toFun a i * toFun b i := dot_eq_sum a b ha hb
  have hsa : sumSquares a = ∑ i ∈ s, toFun a i ^ 2 :=
    sumSquares_eq_sum_superset a ha s Finset.subset_union_left
  have hsb : sumSquares b = ∑ i ∈ s, toFun b i ^ 2 :=
    sumSquares_eq_sum_superset b hb s Finset.subset_union_right
  rw [abs_le, hda, hsa, hsb]
  constructor
  · have h := Real.sum_mul_le_sqrt_mul_sqrt s (fun i => -(toFun a i)) (fun i => toFun b i)
    simp only [neg_mul, Finset.sum_neg_distrib, neg_sq] at h
    linarith
  · exact Real.sum_mul_le_sqrt_mul_sqrt s _ _

/-- Claim C9: the inner product of two unit-norm sorted sparse vectors lies
in the closed interval from -1 to 1; the strict assertion bounds of
mod.rs line 45 follow. -/
theorem claim_C9 (a b : SV ℝ) (ha : SVSorted a) (hb : SVSorted b)
    (hna : sumSquares a = 1) (hnb : sumSquares b = 1) :
    (-1 ≤ dot a b ∧ dot a b ≤ 1) ∧
    (-1 - 1e-4 < dot a b ∧ dot a b < 1 + 1e-4) := by
  have h := abs_dot_le a b ha hb
  rw [hna, hnb, Real.sqrt_one, one_mul, abs_le] at h
  refine ⟨⟨h.1, h.2⟩, ⟨by linarith, by linarith⟩⟩

theorem claim_C9_witness :
    ((-1 ≤ dot [((0:ℕ), (1:ℝ))] [((0:ℕ), (1:ℝ))] ∧
      dot [((0:ℕ), (1:ℝ))] [((0:ℕ), (1:ℝ))] ≤ 1) ∧
     (-1 - 1e-4 < dot [((0:ℕ), (1:ℝ))] [((0:ℕ), (1:ℝ))] ∧
      dot [((0:ℕ), (1:ℝ))] [((0:ℕ), (1:ℝ))] < 1 + 1e-4)) :=
  claim_C9 [((0:ℕ), (1:ℝ))] [((0:ℕ), (1:ℝ))]
    (List.chain'_singleton _) (List.chain'_singleton _)
    (by norm_num [sumSquares]) (by norm_num [sumSquares])

lemma sumSquares_nonneg' (v : SV K) : 0 ≤ sumSquares v := by
  rw [sumSquares]
  apply List.sum_nonneg
  intro x hx
  rcases List.mem_map.mp hx with ⟨p, _, rfl⟩
  exact mul_self_nonneg p.2

lemma SVSorted_from_map (m : List (ℕ × K)) (hnd : (keysA m).Nodup) :
    SVSorted (from_map m) := by
  rw [SVSorted]
  exact List.chain'_iff_pairwise.mpr (sorted_keyLt_from_map m hnd)

lemma SVSorted_map_div (v : SV K) (c : K) (hv : SVSorted v) :
    SVSorted (v.map (fun p => (p.1, p.2 / c))) := by
  rw [SVSorted, List.chain'_map]
  exact hv

lemma SVSorted_l2_normalize (sq : K → K) (v : SV K) (hv : SVSorted v) :
    SVSorted (l2_normalize sq v) := by
  simp only [l2_normalize]
  by_cases h : sq (sumSquares v) = 0
  · rw [if_pos h]
    exact hv
  · rw [if_neg h]
    exact SVSorted_map_div v _ hv

lemma toFun_map_div (v : SV K) (c : K) (j : ℕ) :
    toFun (v.map (fun p => (p.1, p.2 / c))) j = toFun v j / c := by
  induction v with
  | nil => simp [toFun, lookupA, zero_div]
  | cons p rest ih =>
    simp only [List.map_cons]
    rw [show toFun ((p.1, p.2 / c) :: rest.map (fun p : ℕ × K => (p.1, p.2 / c))) j =
      if p.1 = j then p.2 / c
      else toFun (rest.map (fun p : ℕ × K => (p.1, p.2 / c))) j from toFun_cons _ _ _]
    rw [toFun_cons]
    by_cases h : p.1 = j
    · rw [if_pos h, if_pos h]
    · rw [if_neg h, if_neg h, ih]

lemma suppF_map_div (v : SV K) (c : K) :
    suppF (v.map (fun p => (p.1, p.2 / c))) = suppF v := by
  have h : (Prod.fst ∘ fun p : ℕ × K => (p.1, p.2 / c)) = Prod.fst := rfl
  rw [suppF, suppF, List.map_map, h]

lemma sumSquares_map_div (v : SV K) (c : K) :
    sumSquares (v.map (fun p => (p.1, p.2 / c))) = sumSquares v / (c * c) := by
  induction v with
  | nil => simp [sumSquares]
  | cons p rest ih =>
    have h1 : sumSquares ((p :: rest).map fun q : ℕ × K => (q.1, q.2 / c)) =
        (p.2 / c) * (p.2 / c) + sumSquares (rest.map fun q : ℕ × K => (q.1, q.2 / c)) := by
      simp [sumSquares]
    have h2 : sumSquares (p :: rest) = p.2 * p.2 + sumSquares rest := by
      simp [sumSquares]
    rw [h1, h2, ih, add_div]
    congr 1
    exact div_mul_div_comm p.2 c p.2 c

lemma sumSquares_l2_normalize_le_one (v : SV ℝ) :
    sumSquares (l2_normalize Real.sqrt v) ≤ 1 := by
  simp only [l2_normalize]
  by_cases h : Real.sqrt (sumSquares v) = 0
  · rw [if_pos h]
    have h1 : sumSquares v ≤ 0 := Real.sqrt_eq_zero'.mp h
    have h2 := sumSquares_nonneg' v
    linarith
  · rw [if_neg h, sumSquares_map_div,
      Real.mul_self_sqrt (sumSquares_nonneg' v)]
    have hpos : 0 < sumSquares v := by
      rcases lt_or_eq_of_le (sumSquares_nonneg' v) with h1 | h1
      · exact h1
      · exact absurd (h1 ▸ Real.sqrt_zero) h
    rw [div_self (ne_of_gt hpos)]

/-- Invariant carried by the centroid pair along the clustering loop:
both centroids are sorted sparse vectors of norm at most one. -/
def GoodC (c : SV ℝ × SV ℝ) : Prop :=
  SVSorted c.1 ∧ SVSorted c.2 ∧ sumSquares c.1 ≤ 1 ∧ sumSquares c.2 ≤ 1

lemma iterate_centroid_fst (sq : K → K) (vectors : List (SV K)) (c : SV K × SV K)
    (ro : List (ℕ × K)) :
    (balanced_2means_iterate sq vectors c ro).2.1.1 =
      l2_normalize sq (from_map (mapSum
        ((ro.enum.filter (fun p => decide (midRank vectors.length < p.1) == false)).map
          (fun p => vectors.getD p.2.1 [])))) := by
  have hcm := centroidMaps_foldl vectors vectors.length ro.enum ([], [])
  show l2_normalize sq (from_map (centroidMaps vectors vectors.length ro).1) = _
  rw [centroidMaps, hcm]
  rfl

lemma iterate_centroid_snd (sq : K → K) (vectors : List (SV K)) (c : SV K × SV K)
    (ro : List (ℕ × K)) :
    (balanced_2means_iterate sq vectors c ro).2.1.2 =
      l2_normalize sq (from_map (mapSum
        ((ro.enum.filter (fun p => decide (midRank vectors.length < p.1) == true)).map
          (fun p => vectors.getD p.2.1 [])))) := by
  have hcm := centroidMaps_foldl vectors vectors.length ro.enum ([], [])
  show l2_normalize sq (from_map (centroidMaps vectors vectors.length ro).2) = _
  rw [centroidMaps, hcm]
  rfl

lemma GoodC_iterate (vectors : List (SV ℝ)) (c : SV ℝ × SV ℝ) (ro : List (ℕ × ℝ)) :
    GoodC (balanced_2means_iterate Real.sqrt vectors c ro).2.1 := by
  rw [GoodC, iterate_centroid_fst, iterate_centroid_snd]
  refine ⟨?_, ?_, ?_, ?_⟩
  · exact SVSorted_l2_normalize _ _ (SVSorted_from_map _ (nodup_keysA_mapSum _))
  · exact SVSorted_l2_normalize _ _ (SVSorted_from_map _ (nodup_keysA_mapSum _))
  · exact sumSquares_l2_normalize_le_one _
  · exact sumSquares_l2_normalize_le_one _

lemma dot_self_eq (v : SV K) (hv : SVSorted v) : dot v v = sumSquares v := by
  rw [dot_eq_sum v v hv hv, Finset.union_self, sumSquares_eq_sum v hv]
  apply Finset.sum_congr rfl
  intro i _
  ring

lemma toFun_from_map (m : List (ℕ × K)) (hnd : (keysA m).Nodup) (j : ℕ) :
    toFun (from_map m) j = toFun m j := by
  have hperm : (from_map m).Perm m := from_map_perm m
  have hnd' : (keysA (from_map m)).Nodup := (hperm.map Prod.fst).nodup_iff.mpr hnd
  by_cases h : j ∈ keysA m
  · have h' : j ∈ keysA (from_map m) := (hperm.map Prod.fst).mem_iff.mpr h
    have h1 := lookupA_eq_some_toFun m j h
    have h2 := lookupA_eq_some_toFun (from_map m) j h'
    have h3 : ((j, toFun (from_map m) j) : ℕ × K) ∈ from_map m :=
      lookupA_mem _ _ _ h2
    have h4 : ((j, toFun (from_map m) j) : ℕ × K) ∈ m := hperm.mem_iff.mp h3
    have h5 := lookupA_of_mem_nodup m _ hnd h4
    rw [h1] at h5
    exact (Option.some.inj h5).symm
  · have h' : j ∉ keysA (from_map m) := fun hc => h ((hperm.map Prod.fst).mem_iff.mp hc)
    rw [toFun, toFun, (lookupA_eq_none_iff _ _).mpr h, (lookupA_eq_none_iff _ _).mpr h']

lemma dot_normalize_self (v : SV ℝ) (hv : SVSorted v) :
    dot (l2_normalize Real.sqrt v) v = Real.sqrt (sumSquares v) := by
  simp only [l2_normalize]
  by_cases h : Real.sqrt (sumSquares v) = 0
  · rw [if_pos h, dot_self_eq v hv, h]
    have h1 : sumSquares v ≤ 0 := Real.sqrt_eq_zero'.mp h
    have h2 := sumSquares_nonneg' v
    linarith
  · rw [if_neg h]
    set c := Real.sqrt (sumSquares v) with hc
    have hmap : SVSorted (v.map (fun p => (p.1, p.2 / c))) := SVSorted_map_div v c hv
    rw [dot_eq_sum _ v hmap hv, suppF_map_div, Finset.union_self]
    have hterm : ∀ i ∈ suppF v,
        toFun (v.map (fun p => (p.1, p.2 / c))) i * toFun v i = toFun v i ^ 2 / c := by
      intro i _
      rw [toFun_map_div]
      ring
    rw [Finset.sum_congr rfl hterm, ← Finset.sum_div, ← sumSquares_eq_sum v hv, hc]
    exact Real.div_sqrt

lemma dot_le_sqrt (cc w : SV ℝ) (hcc : SVSorted cc) (hw : SVSorted w)
    (hc1 : sumSquares cc ≤ 1) : dot cc w ≤ Real.sqrt (sumSquares w) := by
  have h := abs_dot_le cc w hcc hw
  have h2 : Real.sqrt (sumSquares cc) ≤ 1 := Real.sqrt_le_one.mpr hc1
  have h3 : 0 ≤ Real.sqrt (sumSquares w) := Real.sqrt_nonneg _
  have h4 : 0 ≤ Real.sqrt (sumSquares cc) := Real.sqrt_nonneg _
  have h5 := le_abs_self (dot cc w)
  nlinarith

lemma abs_dot_le_one (cc w : SV ℝ) (hcc : SVSorted cc) (hw : SVSorted w)
    (hc1 : sumSquares cc ≤ 1) (hw1 : sumSquares w = 1) : |dot cc w| ≤ 1 := by
  have h := abs_dot_le cc w hcc hw
  rw [hw1, Real.sqrt_one, mul_one] at h
  exact h.trans (Real.sqrt_le_one.mpr hc1)

lemma vsum_eq_zero (v : SV K) (j : ℕ) (h : ∀ q ∈ v, q.1 ≠ j) : vsum v j = 0 := by
  rw [vsum]
  apply List.sum_eq_zero
  intro x hx
  rcases List.mem_map.mp hx with ⟨q, hq, rfl⟩
  rw [if_neg (h q hq)]

lemma vsum_eq_toFun (v : SV K) (hv : SVSorted v) (j : ℕ) : vsum v j = toFun v j := by
  induction v with
  | nil => rfl
  | cons p rest ih =>
    rw [show vsum (p :: rest) j = (if p.1 = j then p.2 else 0) + vsum rest j from by
      simp [vsum], toFun_cons]
    by_cases h : p.1 = j
    · rw [if_pos h, if_pos h, vsum_eq_zero rest j, add_zero]
      intro q hq
      have h2 := sorted_head_lt hv q hq
      omega
    · rw [if_neg h, if_neg h, zero_add, ih (sorted_tail hv)]

lemma mem_suppF_sumVectors (vs : List (SV K)) (j : ℕ) :
    j ∈ suppF (sumVectors vs) ↔ ∃ v ∈ vs, j ∈ suppF v := by
  rw [sumVectors, mem_suppF]
  have h1 : j ∈ keysA (from_map (mapSum vs)) ↔ j ∈ keysA (mapSum vs) :=
    ((from_map_perm (mapSum vs)).map Prod.fst).mem_iff
  rw [h1, mem_keysA_mapSum]
  constructor
  · rintro ⟨v, hv, hj⟩
    exact ⟨v, hv, mem_suppF.mpr hj⟩
  · rintro ⟨v, hv, hj⟩
    exact ⟨v, hv, mem_suppF.mp hj⟩

lemma SVSorted_sumVectors (vs : List (SV K)) : SVSorted (sumVectors vs) :=
  SVSorted_from_map _ (nodup_keysA_mapSum vs)

lemma toFun_sumVectors (vs : List (SV K)) (hvs : ∀ v ∈ vs, SVSorted v) (j : ℕ) :
    toFun (sumVectors vs) j = (vs.map (fun v => toFun v j)).sum := by
  rw [sumVectors, toFun_from_map _ (nodup_keysA_mapSum vs), toFun_mapSum]
  apply congrArg List.sum
  apply List.map_congr_left
  intro v hv
  exact vsum_eq_toFun v (hvs v hv) j

lemma finset_sum_list_sum_comm {α : Type} (U : Finset ℕ) (vs : List α) (g : ℕ → α → K) :
    ∑ j ∈ U, (vs.map (fun v => g j v)).sum = (vs.map (fun v => ∑ j ∈ U, g j v)).sum := by
  induction vs with
  | nil => simp
  | cons v vs ih =>
    simp only [List.map_cons, List.sum_cons, Finset.sum_add_distrib, ih]

lemma dot_sumVectors (cc : SV ℝ) (hcc : SVSorted cc) (vs : List (SV ℝ))
    (hvs : ∀ v ∈ vs, SVSorted v) :
    dot cc (sumVectors vs) = (vs.map (fun v => dot cc v)).sum := by
  set U := suppF cc ∪ suppF (sumVectors vs) with hU
  rw [dot_eq_sum cc (sumVectors vs) hcc (SVSorted_sumVectors vs)]
  have h1 : ∀ j ∈ U, toFun cc j * toFun (sumVectors vs) j =
      (vs.map (fun v => toFun cc j * toFun v j)).sum := by
    intro j _
    rw [toFun_sumVectors vs hvs j, ← List.sum_map_mul_left]
  rw [Finset.sum_congr rfl h1, finset_sum_list_sum_comm]
  apply congrArg List.sum
  apply List.map_congr_left
  intro v hv
  symm
  apply dot_eq_sum_superset cc v hcc (hvs v hv)
  intro j hj
  rw [Finset.mem_union] at hj
  rw [hU, Finset.mem_union]
  rcases hj with h | h
  · exact Or.inl h
  · exact Or.inr ((mem_suppF_sumVectors vs j).mpr ⟨v, hv, h⟩)

/-- Sum, over all vectors, of the similarity to the centroid chosen by a
partition assignment. -/
noncomputable def chF (c : SV ℝ × SV ℝ) (P : List Bool) (vectors : List (SV ℝ)) : ℝ :=
  ∑ i ∈ Finset.range vectors.length,
    if P.getD i false then dot c.2 (vectors.getD i []) else dot c.1 (vectors.getD i [])

lemma list_range_map_sum (n : ℕ) (f : ℕ → K) :
    ((List.range n).map f).sum = ∑ i ∈ Finset.range n, f i := by
  induction n with
  | zero => simp
  | succ n ih =>
    rw [List.range_succ, List.map_append, List.sum_append, Finset.sum_range_succ, ih]
    simp

lemma list_filter_range_map_sum (n : ℕ) (pred : ℕ → Bool) (f : ℕ → ℝ) :
    ((((List.range n).filter pred).map f).sum) =
      ∑ i ∈ (Finset.range n).filter (fun i => pred i = true), f i := by
  induction n with
  | zero => simp
  | succ n ih =>
    rw [List.range_succ, List.filter_append, List.map_append, List.sum_append, ih,
      Finset.range_succ, Finset.filter_insert]
    by_cases h : pred n = true
    · rw [if_pos h, Finset.sum_insert (by simp)]
      simp [h]
      ring
    · rw [if_neg h]
      simp [h]

lemma getD_sorted (vectors : List (SV K)) (hsv : ∀ v ∈ vectors, SVSorted v) (i : ℕ) :
    SVSorted (vectors.getD i []) := by
  by_cases h : i < vectors.length
  · rw [List.getD_eq_getElem _ _ h]
    exact hsv _ (List.getElem_mem h)
  · rw [List.getD_eq_default _ _ (by omega)]
    exact List.chain'_nil

lemma side_sum_eq (vectors : List (SV ℝ)) (hsv : ∀ v ∈ vectors, SVSorted v)
    (P : List Bool) (b : Bool) (cb : SV ℝ) (hcb : SVSorted cb) :
    ∑ i ∈ (Finset.range vectors.length).filter
        (fun i => (P.getD i false == b) = true),
      dot cb (vectors.getD i []) =
    dot cb (sumVectors (assignedVectors vectors P b)) := by
  rw [dot_sumVectors cb hcb _ ?side]
  case side =>
    intro v hv
    rcases List.mem_map.mp hv with ⟨i, _, rfl⟩
    exact getD_sorted vectors hsv i
  rw [assignedVectors, List.map_map]
  rw [← list_filter_range_map_sum vectors.length (fun i => P.getD i false == b)
    (fun i => dot cb (vectors.getD i []))]
  rfl

lemma chF_split (c : SV ℝ × SV ℝ) (P : List Bool) (vectors : List (SV ℝ)) :
    chF c P vectors =
      (∑ i ∈ (Finset.range vectors.length).filter
          (fun i => (P.getD i false == false) = true),
        dot c.1 (vectors.getD i [])) +
      (∑ i ∈ (Finset.range vectors.length).filter
          (fun i => (P.getD i false == true) = true),
        dot c.2 (vectors.getD i [])) := by
  have h1 : (Finset.range vectors.length).filter (fun i => (P.getD i false == true) = true) =
      (Finset.range vectors.length).filter (fun i => P.getD i false = true) := by
    apply Finset.filter_congr
    intro i _
    simp
  have h2 : (Finset.range vectors.length).filter (fun i => (P.getD i false == false) = true) =
      (Finset.range vectors.length).filter (fun i => ¬(P.getD i false = true)) := by
    apply Finset.filter_congr
    intro i _
    simp
  rw [chF, ← Finset.sum_filter_add_sum_filter_not (Finset.range vectors.length)
    (fun i => P.getD i false = true), h1, h2, add_comm]
  congr 1
  · apply Finset.sum_congr rfl
    intro i hi
    rw [if_neg (by simpa using (Finset.mem_filter.mp hi).2)]
  · apply Finset.sum_congr rfl
    intro i hi
    rw [if_pos (by simpa using (Finset.mem_filter.mp hi).2)]

lemma chF_le_chF_step (vectors : List (SV ℝ)) (hsv : ∀ v ∈ vectors, SVSorted v)
    (c : SV ℝ × SV ℝ) (hc : GoodC c) (ro : List (ℕ × ℝ))
    (hro : ro.Perm (indexDiffPairs (simsOf c vectors))) :
    chF c (balanced_2means_iterate Real.sqrt vectors c ro).1 vectors ≤
      chF (balanced_2means_iterate Real.sqrt vectors c ro).2.1
        (balanced_2means_iterate Real.sqrt vectors c ro).1 vectors := by
  have hcent := centroids_of_iterate Real.sqrt vectors c ro rfl hro
  set P := (balanced_2means_iterate Real.sqrt vectors c ro).1 with hP
  set c' := (balanced_2means_iterate Real.sqrt vectors c ro).2.1 with hc'
  have hc1 : c'.1 = l2_normalize Real.sqrt (sumVectors (assignedVectors vectors P false)) :=
    congrArg Prod.fst hcent
  have hc2 : c'.2 = l2_normalize Real.sqrt (sumVectors (assignedVectors vectors P true)) :=
    congrArg Prod.snd hcent
  rw [chF_split c P vectors, chF_split c' P vectors]
  have hfalse : ∑ i ∈ (Finset.range vectors.length).filter
      (fun i => (P.getD i false == false) = true), dot c.1 (vectors.getD i []) ≤
      ∑ i ∈ (Finset.range vectors.length).filter
      (fun i => (P.getD i false == false) = true), dot c'.1 (vectors.getD i []) := by
    rw [side_sum_eq vectors hsv P false c.1 hc.1,
      side_sum_eq vectors hsv P false c'.1 (hc1 ▸ SVSorted_l2_normalize _ _
        (SVSorted_sumVectors _))]
    rw [hc1, dot_normalize_self _ (SVSorted_sumVectors _)]
    exact dot_le_sqrt c.1 _ hc.1 (SVSorted_sumVectors _) hc.2.2.1
  have htrue : ∑ i ∈ (Finset.range vectors.length).filter
      (fun i => (P.getD i false == true) = true), dot c.2 (vectors.getD i []) ≤
      ∑ i ∈ (Finset.range vectors.length).filter
      (fun i => (P.getD i false == true) = true), dot c'.2 (vectors.getD i []) := by
    rw [side_sum_eq vectors hsv P true c.2 hc.2.1,
      side_sum_eq vectors hsv P true c'.2 (hc2 ▸ SVSorted_l2_normalize _ _
        (SVSorted_sumVectors _))]
    rw [hc2, dot_normalize_self _ (SVSorted_sumVectors _)]
    exact dot_le_sqrt c.2 _ hc.2.1 (SVSorted_sumVectors _) hc.2.2.2
  linarith

lemma sum_le_sum_of_balanced (d : ℕ → ℝ) (m : ℝ) (N A B : Finset ℕ)
    (hA : A ⊆ N) (hB : B ⊆ N) (hcard : A.card = B.card)
    (h1 : ∀ i ∈ B, d i ≤ m) (h2 : ∀ i ∈ N, i ∉ B → m ≤ d i) :
    ∑ i ∈ B, d i ≤ ∑ i ∈ A, d i := by
  have e1 : ∑ i ∈ B \ (B ∩ A), d i + ∑ i ∈ B ∩ A, d i = ∑ i ∈ B, d i :=
    Finset.sum_sdiff Finset.inter_subset_left
  have e2 : ∑ i ∈ A \ (A ∩ B), d i + ∑ i ∈ A ∩ B, d i = ∑ i ∈ A, d i :=
    Finset.sum_sdiff Finset.inter_subset_left
  rw [Finset.sdiff_inter_self_left] at e1 e2
  have hinter : B ∩ A = A ∩ B := Finset.inter_comm B A
  have hcards : (B \ A).card = (A \ B).card := by
    have c1 := Finset.card_sdiff_add_card_inter B A
    have c2 := Finset.card_sdiff_add_card_inter A B
    rw [hinter] at c1
    omega
  have hb1 : ∑ i ∈ B \ A, d i ≤ (B \ A).card • m := by
    apply Finset.sum_le_card_nsmul
    intro i hi
    exact h1 i (Finset.mem_sdiff.mp hi).1
  have hb2 : (A \ B).card • m ≤ ∑ i ∈ A \ B, d i := by
    apply Finset.card_nsmul_le_sum
    intro i hi
    rcases Finset.mem_sdiff.mp hi with ⟨hiA, hiB⟩
    exact h2 i (hA hiA) hiB
  rw [hcards] at hb1
  have hmain : ∑ i ∈ B \ A, d i ≤ ∑ i ∈ A \ B, d i := le_trans hb1 hb2
  rw [hinter] at e1
  linarith

lemma mem_reorder_val {sims : List (K × K)} {ro : List (ℕ × K)}
    (hro : ro.Perm (indexDiffPairs sims)) {q : ℕ × K} (hq : q ∈ ro) :
    q.2 = diffAt sims q.1 := by
  have h := hro.mem_iff.mp hq
  rw [indexDiffPairs] at h
  rcases List.mem_map.mp h with ⟨i, _, rfl⟩
  rfl

lemma getD_rank_eq {sims : List (K × K)} {ro : List (ℕ × K)}
    (hro : ro.Perm (indexDiffPairs sims)) {i : ℕ} (hi : i < sims.length) :
    ro.getD (rankOf ro i) (0, 0) = (i, diffAt sims i) := by
  have hmem : i ∈ ro.map Prod.fst := by
    rw [(reorder_keys_perm hro).mem_iff, List.mem_range]
    exact hi
  have hidx : (ro.map Prod.fst).indexOf i < (ro.map Prod.fst).length :=
    List.indexOf_lt_length.mpr hmem
  have hlt : rankOf ro i < ro.length := by
    have h2 := hidx
    rw [List.length_map] at h2
    exact h2
  have hfst : (ro.getD (rankOf ro i) (0, 0)).1 = i := by
    rw [List.getD_eq_getElem _ _ hlt]
    have h3 : (ro.map Prod.fst)[(ro.map Prod.fst).indexOf i] = i :=
      List.getElem_indexOf hidx
    rw [List.getElem_map] at h3
    exact h3
  have hmem2 : ro.getD (rankOf ro i) (0, 0) ∈ ro := by
    rw [List.getD_eq_getElem _ _ hlt]
    exact List.getElem_mem hlt
  have hval := mem_reorder_val hro hmem2
  rw [hfst] at hval
  rw [Prod.ext_iff]
  exact ⟨hfst, hval⟩

lemma parts_d_char {sims : List (K × K)} {ro : List (ℕ × K)} {n : ℕ}
    (hval : ValidReorder sims n ro) (hn : n = sims.length) {i : ℕ} (hi : i < n) :
    ((partitionsOf n ro).getD i false = true →
      diffAt sims i ≤ (ro.getD (midRank n) (0, 0)).2) ∧
    ((partitionsOf n ro).getD i false = false →
      (ro.getD (midRank n) (0, 0)).2 ≤ diffAt sims i) := by
  subst hn
  have hro := hval.1
  have hi' : i < sims.length := hi
  have hmem : i ∈ ro.map Prod.fst := by
    rw [(reorder_keys_perm hro).mem_iff, List.mem_range]
    exact hi'
  have hlt : rankOf ro i < ro.length := by
    rw [rankOf]
    simpa using List.indexOf_lt_length.mpr hmem
  have hparts := partitionsOf_getD hro hi'
  have hrank := getD_rank_eq hro hi'
  constructor
  · intro ht
    rw [hparts] at ht
    have hmidle : midRank sims.length ≤ rankOf ro i := le_of_lt (by simpa using ht)
    have := hval.2.2 (rankOf ro i) hlt hmidle
    rw [hrank] at this
    exact this
  · intro hf
    rw [hparts] at hf
    have hrle : rankOf ro i ≤ midRank sims.length := by
      have := of_decide_eq_false hf
      omega
    have := hval.2.1 (rankOf ro i) hlt hrle
    rw [hrank] at this
    exact this

lemma chF_eq_sub (c : SV ℝ × SV ℝ) (Q : List Bool) (vectors : List (SV ℝ)) :
    chF c Q vectors =
      (∑ i ∈ Finset.range vectors.length, dot c.1 (vectors.getD i [])) -
      ∑ i ∈ (Finset.range vectors.length).filter (fun i => Q.getD i false = true),
        (dot c.1 (vectors.getD i []) - dot c.2 (vectors.getD i [])) := by
  rw [chF, Finset.sum_filter, ← Finset.sum_sub_distrib]
  apply Finset.sum_congr rfl
  intro i _
  by_cases h : Q.getD i false = true
  · rw [if_pos h, if_pos (by exact h)]
    ring
  · rw [if_neg h, if_neg (by exact h)]
    ring

lemma count_eq_card_filter_range (l : List Bool) :
    l.count true = ((Finset.range l.length).filter (fun i => l.getD i false = true)).card := by
  induction l with
  | nil => simp
  | cons b rest ih =>
    rw [Finset.card_filter, List.length_cons, Finset.sum_range_succ']
    have h0 : ((b :: rest).getD 0 false) = b := rfl
    have hs : ∀ i : ℕ, ((b :: rest).getD (i + 1) false) = rest.getD i false := fun i => rfl
    simp only [hs, h0]
    rw [← Finset.card_filter, ← ih, List.count_cons]
    by_cases hb : b = true
    · simp [hb]
    · simp [hb]

lemma chF_le_parts_opt (vectors : List (SV ℝ)) (c' : SV ℝ × SV ℝ) (ro' : List (ℕ × ℝ))
    (hval : ValidReorder (simsOf c' vectors) vectors.length ro')
    (Q : List Bool)
    (hQ : ((Finset.range vectors.length).filter (fun i => Q.getD i false = true)).card =
      ((Finset.range vectors.length).filter
        (fun i => (partitionsOf vectors.length ro').getD i false = true)).card) :
    chF c' Q vectors ≤ chF c' (partitionsOf vectors.length ro') vectors := by
  have hlen : vectors.length = (simsOf c' vectors).length := by simp [simsOf]
  set n := vectors.length with hn
  set d : ℕ → ℝ := fun i => diffAt (simsOf c' vectors) i with hd
  set m : ℝ := (ro'.getD (midRank n) (0, 0)).2 with hm
  set T := (Finset.range n).filter (fun i => Q.getD i false = true) with hT
  set Tp := (Finset.range n).filter
    (fun i => (partitionsOf n ro').getD i false = true) with hTp
  have hdiff_eq : ∀ i ∈ Finset.range n, d i =
      dot c'.1 (vectors.getD i []) - dot c'.2 (vectors.getD i []) := by
    intro i hi
    rw [Finset.mem_range] at hi
    show diffAt (simsOf c' vectors) i = _
    rw [show diffAt (simsOf c' vectors) i =
      ((simsOf c' vectors).getD i (0, 0)).1 - ((simsOf c' vectors).getD i (0, 0)).2 from rfl]
    rw [sims_getD_eq c' vectors hi]
  have hmain : ∑ i ∈ Tp, d i ≤ ∑ i ∈ T, d i := by
    apply sum_le_sum_of_balanced d m (Finset.range n) T Tp
      (Finset.filter_subset _ _) (Finset.filter_subset _ _) hQ
    · intro i hi
      rcases Finset.mem_filter.mp hi with ⟨hir, hit⟩
      rw [Finset.mem_range] at hir
      exact ((parts_d_char hval hlen hir).1 hit)
    · intro i hiN hi
      rw [Finset.mem_range] at hiN
      have hf : (partitionsOf n ro').getD i false = false := by
        by_cases h : (partitionsOf n ro').getD i false = true
        · exact absurd (Finset.mem_filter.mpr ⟨Finset.mem_range.mpr hiN, h⟩) hi
        · simpa using h
      exact ((parts_d_char hval hlen hiN).2 hf)
  rw [chF_eq_sub, chF_eq_sub]
  have ht1 : ∑ i ∈ T, (dot c'.1 (vectors.getD i []) - dot c'.2 (vectors.getD i [])) =
      ∑ i ∈ T, d i := by
    apply Finset.sum_congr rfl
    intro i hi
    rw [hdiff_eq i (Finset.mem_of_mem_filter i hi)]
  have ht2 : ∑ i ∈ Tp, (dot c'.1 (vectors.getD i []) - dot c'.2 (vectors.getD i [])) =
      ∑ i ∈ Tp, d i := by
    apply Finset.sum_congr rfl
    intro i hi
    rw [hdiff_eq i (Finset.mem_of_mem_filter i hi)]
  rw [ht1, ht2]
  linarith

/-- One pass of the `balanced_2means` loop body, as a map on centroids. -/
def b2mStep (sq : K → K) (vectors : List (SV K)) (sel : SV K × SV K → List (ℕ × K))
    (c : SV K × SV K) : SV K × SV K :=
  (balanced_2means_iterate sq vectors c (sel c)).2.1

/-- Average similarity computed by one pass of the `balanced_2means` loop. -/
def b2mAvg (sq : K → K) (vectors : List (SV K)) (sel : SV K × SV K → List (ℕ × K))
    (c : SV K × SV K) : K :=
  (balanced_2means_iterate sq vectors c (sel c)).2.2

lemma avg_eq_chF (vectors : List (SV ℝ)) (sel : SV ℝ × SV ℝ → List (ℕ × ℝ))
    (c : SV ℝ × SV ℝ)
    (hro : (sel c).Perm (indexDiffPairs (simsOf c vectors))) :
    b2mAvg Real.sqrt vectors sel c =
      chF c (balanced_2means_iterate Real.sqrt vectors c (sel c)).1 vectors /
        vectors.length := by
  rw [b2mAvg, avg_eq_sum Real.sqrt vectors c (sel c) hro, list_range_map_sum, chF]

lemma card_trues_of_valid {vectors : List (SV ℝ)} {c : SV ℝ × SV ℝ} {ro : List (ℕ × ℝ)}
    (hn : 2 ≤ vectors.length)
    (hro : ro.Perm (indexDiffPairs (simsOf c vectors))) :
    ((Finset.range vectors.length).filter
      (fun i => (balanced_2means_iterate Real.sqrt vectors c ro).1.getD i false = true)).card =
      vectors.length - vectors.length / 2 := by
  have hlen : (simsOf c vectors).length = vectors.length := by simp [simsOf]
  have hparts : (balanced_2means_iterate Real.sqrt vectors c ro).1 =
      partitionsOf vectors.length ro := rfl
  have hn' : 2 ≤ (simsOf c vectors).length := by rw [hlen]; exact hn
  have hcount := count_true_partitionsOf hro hn'
  have hcard := count_eq_card_filter_range (partitionsOf (simsOf c vectors).length ro)
  rw [hcount, length_partitionsOf] at hcard
  rw [hparts, ← hlen]
  exact hcard.symm

lemma GoodC_b2mStep (vectors : List (SV ℝ)) (sel : SV ℝ × SV ℝ → List (ℕ × ℝ))
    (c : SV ℝ × SV ℝ) : GoodC (b2mStep Real.sqrt vectors sel c) :=
  GoodC_iterate vectors c (sel c)

lemma avg_bounds (vectors : List (SV ℝ)) (sel : SV ℝ × SV ℝ → List (ℕ × ℝ))
    (hn : 2 ≤ vectors.length)
    (hsv : ∀ v ∈ vectors, SVSorted v)
    (hunit : ∀ v ∈ vectors, sumSquares v = 1)
    (hsel : ∀ c, ValidReorder (simsOf c vectors) vectors.length (sel c))
    (c : SV ℝ × SV ℝ) (hc : GoodC c) :
    -1 ≤ b2mAvg Real.sqrt vectors sel c ∧ b2mAvg Real.sqrt vectors sel c ≤ 1 := by
  have hnpos : (0:ℝ) < vectors.length := by
    have : 0 < vectors.length := by omega
    exact_mod_cast this
  rw [avg_eq_chF vectors sel c (hsel c).1]
  set P := (balanced_2means_iterate Real.sqrt vectors c (sel c)).1
  have hterm : ∀ i ∈ Finset.range vectors.length,
      |if P.getD i false then dot c.2 (vectors.getD i [])
       else dot c.1 (vectors.getD i [])| ≤ 1 := by
    intro i hi
    rw [Finset.mem_range] at hi
    have hu : sumSquares (vectors.getD i []) = 1 := by
      rw [List.getD_eq_getElem _ _ hi]
      exact hunit _ (List.getElem_mem hi)
    have hs := getD_sorted vectors hsv i
    by_cases h : P.getD i false
    · rw [if_pos h]
      exact abs_dot_le_one c.2 _ hc.2.1 hs hc.2.2.2 hu
    · rw [if_neg h]
      exact abs_dot_le_one c.1 _ hc.1 hs hc.2.2.1 hu
  have habs : |chF c P vectors| ≤ vectors.length := by
    rw [chF]
    calc |∑ i ∈ Finset.range vectors.length,
        if P.getD i false then dot c.2 (vectors.getD i [])
        else dot c.1 (vectors.getD i [])| ≤
        ∑ i ∈ Finset.range vectors.length,
          |if P.getD i false then dot c.2 (vectors.getD i [])
           else dot c.1 (vectors.getD i [])| := Finset.abs_sum_le_sum_abs _ _
      _ ≤ (Finset.range vectors.length).card • (1:ℝ) :=
        Finset.sum_le_card_nsmul _ _ 1 hterm
      _ = vectors.length := by simp
  rw [abs_le] at habs
  constructor
  · rw [le_div_iff hnpos]
    linarith
  · rw [div_le_iff hnpos]
    linarith

lemma avg_step_mono (vectors : List (SV ℝ)) (sel : SV ℝ × SV ℝ → List (ℕ × ℝ))
    (hn : 2 ≤ vectors.length)
    (hsv : ∀ v ∈ vectors, SVSorted v)
    (hsel : ∀ c, ValidReorder (simsOf c vectors) vectors.length (sel c))
    (c : SV ℝ × SV ℝ) (hc : GoodC c) :
    b2mAvg Real.sqrt vectors sel c ≤
      b2mAvg Real.sqrt vectors sel (b2mStep Real.sqrt vectors sel c) := by
  have hnpos : (0:ℝ) < vectors.length := by
    have : 0 < vectors.length := by omega
    exact_mod_cast this
  set c' := b2mStep Real.sqrt vectors sel c with hc'
  set P := (balanced_2means_iterate Real.sqrt vectors c (sel c)).1 with hP
  set P' := (balanced_2means_iterate Real.sqrt vectors c' (sel c')).1 with hP'
  have h1 : chF c P vectors ≤ chF c' P vectors :=
    chF_le_chF_step vectors hsv c hc (sel c) (hsel c).1
  have h2 : chF c' P vectors ≤ chF c' P' vectors := by
    have hcardP := card_trues_of_valid hn (hsel c).1
    have hcardP' := card_trues_of_valid hn (hsel c').1
    have hparts' : (balanced_2means_iterate Real.sqrt vectors c' (sel c')).1 =
        partitionsOf vectors.length (sel c') := rfl
    rw [hP', hparts']
    apply chF_le_parts_opt vectors c' (sel c') (hsel c') P
    rw [hcardP]
    rw [hparts'] at hcardP'
    exact hcardP'.symm
  rw [avg_eq_chF vectors sel c (hsel c).1, avg_eq_chF vectors sel c' (hsel c').1]
  rw [div_le_div_iff_of_pos_right hnpos]
  exact le_trans h1 h2

/-- Claim C7: within a run of `balanced_2means` starting from two of the
input vectors as centroids, the sequence of average similarities produced
by successive iterations is monotonically non-decreasing, and the first
average is at least the initial `prev_avg_similarity` value of -2, so the
assertion of mod.rs line 99 holds at every step. -/
theorem claim_C7 (vectors : List (SV ℝ)) (sel : SV ℝ × SV ℝ → List (ℕ × ℝ)) (k0 k1 : ℕ)
    (hn : 2 ≤ vectors.length)
    (hsv : ∀ v ∈ vectors, SVSorted v)
    (hunit : ∀ v ∈ vectors, sumSquares v = 1)
    (hsel : ∀ c, ValidReorder (simsOf c vectors) vectors.length (sel c))
    (hk0 : k0 < vectors.length) (hk1 : k1 < vectors.length) :
    -2 ≤ b2mAvg Real.sqrt vectors sel (vectors.getD k0 [], vectors.getD k1 []) ∧
    ∀ t : ℕ,
      b2mAvg Real.sqrt vectors sel
        ((b2mStep Real.sqrt vectors sel)^[t] (vectors.getD k0 [], vectors.getD k1 [])) ≤
      b2mAvg Real.sqrt vectors sel
        ((b2mStep Real.sqrt vectors sel)^[t + 1]
          (vectors.getD k0 [], vectors.getD k1 [])) := by
  have hinit : GoodC (vectors.getD k0 [], vectors.getD k1 []) := by
    refine ⟨getD_sorted vectors hsv k0, getD_sorted vectors hsv k1, ?_, ?_⟩
    · rw [show (vectors.getD k0 [], vectors.getD k1 []).1 = vectors.getD k0 [] from rfl,
        List.getD_eq_getElem _ _ hk0, hunit _ (List.getElem_mem hk0)]
    · rw [show (vectors.getD k0 [], vectors.getD k1 []).2 = vectors.getD k1 [] from rfl,
        List.getD_eq_getElem _ _ hk1, hunit _ (List.getElem_mem hk1)]
  have hgood : ∀ t : ℕ,
      GoodC ((b2mStep Real.sqrt vectors sel)^[t] (vectors.getD k0 [], vectors.getD k1 [])) := by
    intro t
    cases t with
    | zero => exact hinit
    | succ t =>
      rw [Function.iterate_succ_apply']
      exact GoodC_b2mStep vectors sel _
  constructor
  · have h := (avg_bounds vectors sel hn hsv hunit hsel _ hinit).1
    linarith
  · intro t
    rw [Function.iterate_succ_apply']
    exact avg_step_mono vectors sel hn hsv hsel _ (hgood t)

lemma b2mGo_total (vectors : List (SV ℝ)) (sel : SV ℝ × SV ℝ → List (ℕ × ℝ))
    (epsilon : ℝ)
    (hn : 2 ≤ vectors.length)
    (hsv : ∀ v ∈ vectors, SVSorted v)
    (hunit : ∀ v ∈ vectors, sumSquares v = 1)
    (hsel : ∀ c, ValidReorder (simsOf c vectors) vectors.length (sel c)) :
    ∀ (T : ℕ) (c : SV ℝ × SV ℝ) (prev : ℝ), GoodC c →
      prev ≤ b2mAvg Real.sqrt vectors sel c → 1 < prev + T * epsilon →
      ∃ parts, b2mGo Real.sqrt vectors sel epsilon (T + 1) c prev = some parts := by
  intro T
  induction T with
  | zero =>
    intro c prev hc hprev hT
    exfalso
    have h2 := (avg_bounds vectors sel hn hsv hunit hsel c hc).2
    push_cast at hT
    linarith
  | succ T ih =>
    intro c prev hc hprev hT
    rw [b2mGo]
    have h1 : ¬((balanced_2means_iterate Real.sqrt vectors c (sel c)).2.2 < prev) :=
      not_lt.mpr hprev
    by_cases h2 : (balanced_2means_iterate Real.sqrt vectors c (sel c)).2.2 - prev < epsilon
    · refine ⟨(balanced_2means_iterate Real.sqrt vectors c (sel c)).1, ?_⟩
      simp only [h1, h2, if_false, if_true]
    · have ha : prev + epsilon ≤ b2mAvg Real.sqrt vectors sel c := by
        rw [b2mAvg]
        push_neg at h2
        linarith

      have hnext := ih (b2mStep Real.sqrt vectors sel c)
        (b2mAvg Real.sqrt vectors sel c)
        (GoodC_b2mStep vectors sel c)
        (avg_step_mono vectors sel hn hsv hsel c hc)
        (by
          push_cast at hT ⊢
          linarith)
      rcases hnext with ⟨parts, hparts⟩
      refine ⟨parts, ?_⟩
      simp only [h1, h2, if_false]
      exact hparts

/-- Claim C8: for at least two unit-norm sorted input vectors and any
positive epsilon, the `balanced_2means` loop terminates: some finite fuel
makes the embedded loop return, because each non-final iteration improves
the bounded average similarity by at least epsilon. -/
theorem claim_C8 (vectors : List (SV ℝ)) (sel : SV ℝ × SV ℝ → List (ℕ × ℝ))
    (k0 k1 : ℕ) (epsilon : ℝ)
    (hn : 2 ≤ vectors.length)
    (hsv : ∀ v ∈ vectors, SVSorted v)
    (hunit : ∀ v ∈ vectors, sumSquares v = 1)
    (hsel : ∀ c, ValidReorder (simsOf c vectors) vectors.length (sel c))
    (hk0 : k0 < vectors.length) (hk1 : k1 < vectors.length)
    (heps : 0 < epsilon) :
    ∃ (fuel : ℕ) (parts : List Bool),
      balanced_2means Real.sqrt vectors epsilon sel k0 k1 fuel = some parts := by
  have hinit : GoodC (vectors.getD k0 [], vectors.getD k1 []) := by
    refine ⟨getD_sorted vectors hsv k0, getD_sorted vectors hsv k1, ?_, ?_⟩
    · rw [show (vectors.getD k0 [], vectors.getD k1 []).1 = vectors.getD k0 [] from rfl,
        List.getD_eq_getElem _ _ hk0, hunit _ (List.getElem_mem hk0)]
    · rw [show (vectors.getD k0 [], vectors.getD k1 []).2 = vectors.getD k1 [] from rfl,
        List.getD_eq_getElem _ _ hk1, hunit _ (List.getElem_mem hk1)]
  obtain ⟨T, hT⟩ := exists_nat_gt (3 / epsilon)
  have hT3 : 3 < T * epsilon := by
    rw [div_lt_iff heps] at hT
    linarith
  have hprev : (-2 : ℝ) ≤ b2mAvg Real.sqrt vectors sel (vectors.getD k0 [], vectors.getD k1 []) := by
    have h := (avg_bounds vectors sel hn hsv hunit hsel _ hinit).1
    linarith
  obtain ⟨parts, hparts⟩ := b2mGo_total vectors sel epsilon hn hsv hunit hsel T
    (vectors.getD k0 [], vectors.getD k1 []) (-2) hinit hprev (by linarith)
  exact ⟨T + 1, parts, hparts⟩

/-- Concrete real-valued pair of unit vectors instantiating the loop claims. -/
def rVecs : List (SV ℝ) :=
  [[(0, 1)], [(1, 1)]]

lemma rVecs_sorted : ∀ v ∈ rVecs, SVSorted v := by
  intro v hv
  rw [rVecs] at hv
  rcases List.mem_cons.mp hv with rfl | hv
  · exact List.chain'_singleton _
  · rcases List.mem_cons.mp hv with rfl | hv
    · exact List.chain'_singleton _
    · cases hv

lemma rVecs_unit : ∀ v ∈ rVecs, sumSquares v = 1 := by
  intro v hv
  rw [rVecs] at hv
  rcases List.mem_cons.mp hv with rfl | hv
  · norm_num [sumSquares]
  · rcases List.mem_cons.mp hv with rfl | hv
    · norm_num [sumSquares]
    · cases hv

theorem claim_C7_witness :
    -2 ≤ b2mAvg Real.sqrt rVecs (insSel rVecs) (rVecs.getD 0 [], rVecs.getD 1 []) ∧
    ∀ t : ℕ,
      b2mAvg Real.sqrt rVecs (insSel rVecs)
        ((b2mStep Real.sqrt rVecs (insSel rVecs))^[t] (rVecs.getD 0 [], rVecs.getD 1 [])) ≤
      b2mAvg Real.sqrt rVecs (insSel rVecs)
        ((b2mStep Real.sqrt rVecs (insSel rVecs))^[t + 1]
          (rVecs.getD 0 [], rVecs.getD 1 [])) :=
  claim_C7 rVecs (insSel rVecs) 0 1 (by norm_num [rVecs]) rVecs_sorted rVecs_unit
    (fun c => insSel_valid rVecs c) (by norm_num [rVecs]) (by norm_num [rVecs])

theorem claim_C8_witness :
    ∃ (fuel : ℕ) (parts : List Bool),
      balanced_2means Real.sqrt rVecs 1 (insSel rVecs) 0 1 fuel = some parts :=
  claim_C8 rVecs (insSel rVecs) 0 1 1 (by norm_num [rVecs]) rVecs_sorted rVecs_unit
    (fun c => insSel_valid rVecs c) (by norm_num [rVecs]) (by norm_num [rVecs])
    (by norm_num)

end Omikuji
